import Mathlib

/-!
Verification of the bit-field struct parser (`struct_parser.h`).

The C++ source is shallowly embedded: strings are `List Char`, buffers are
`List Nat` (one byte per entry, meaningful when every entry is `< 256`),
machine integers are `Nat` with explicit `% 2 ^ 64` where 64-bit overflow
matters, and functions that throw are modelled with `Except`.
-/

namespace StructParser

/-- `std::isspace` in the C locale: space, tab, newline, vertical tab,
form feed, carriage return. -/
def isSpaceChar (c : Char) : Bool :=
  c = ' ' || c = '\t' || c = '\n' || c = '\x0b' || c = '\x0c' || c = '\r'

/-- The whitespace set `" \t\n\r"` used by `trim` (note: no `\v`, `\f`). -/
def isTrimChar (c : Char) : Bool :=
  c = ' ' || c = '\t' || c = '\n' || c = '\r'

/-- Regex class `\w` : `[A-Za-z0-9_]`. -/
def isWordChar (c : Char) : Bool :=
  (('A' ≤ c && c ≤ 'Z') || ('a' ≤ c && c ≤ 'z') || ('0' ≤ c && c ≤ '9') || c = '_')

/-- Regex class `\d` : `[0-9]`. -/
def isDigitChar (c : Char) : Bool :=
  '0' ≤ c && c ≤ '9'

/-- Drop a trailing run of characters satisfying `p` (helper for `trim`). -/
def dropTrailing (p : Char → Bool) : List Char → List Char
  | [] => []
  | c :: r =>
    let r' := dropTrailing p r
    if r' = [] && p c then [] else c :: r'

/-- `BitFieldStructParser::trim`: remove leading and trailing `" \t\n\r"`. -/
def trim (l : List Char) : List Char :=
  dropTrailing isTrimChar (l.dropWhile isTrimChar)

/-- State of the comment-handling loops, refined so that the machines
consume exactly one character per step (the C++ loop peeks one character
ahead with `str[i + 1]` and skips it with `++i`; here that pending
character is part of the state instead): `norm` is outside any comment,
`slash` means a `/` was just read outside a comment and not yet resolved,
`line` is inside a `//` comment, `block` inside a `/* */` comment, and
`blockStar` inside a block comment right after a `*`. -/
inductive CMode
  | norm
  | slash
  | line
  | block
  | blockStar
deriving DecidableEq

/-- The loop body of `removeCommentsAndExtraSpaces`, fused comment
stripping and whitespace collapsing.  The `Bool` argument records whether
`result` currently ends with `' '` (false when `result` is empty), which is
what `result.empty() || result.back() != ' '` consults.  A `//` comment
terminated by `'\n'` appends `' '` unconditionally (the source does not
re-check `result.back()` there); a `/* */` comment is dropped with no
replacement character; a `/` not followed by `/` or `*` (or at the end of
input) is copied like any other character. -/
def normChars : CMode → Bool → List Char → List Char
  | .norm, _, [] => []
  | .slash, _, [] => ['/']
  | .line, _, [] => []
  | .block, _, [] => []
  | .blockStar, _, [] => []
  | .norm, b, c :: r =>
    if c = '/' then normChars .slash b r
    else if isSpaceChar c then
      if b then normChars .norm true r else ' ' :: normChars .norm true r
    else c :: normChars .norm false r
  | .slash, b, c :: r =>
    if c = '/' then normChars .line b r
    else if c = '*' then normChars .block b r
    else '/' ::
      (if isSpaceChar c then ' ' :: normChars .norm true r
       else c :: normChars .norm false r)
  | .line, b, c :: r =>
    if c = '\n' then ' ' :: normChars .norm true r else normChars .line b r
  | .block, b, c :: r =>
    if c = '*' then normChars .blockStar b r else normChars .block b r
  | .blockStar, b, c :: r =>
    if c = '/' then normChars .norm b r
    else if c = '*' then normChars .blockStar b r
    else normChars .block b r

/-- `BitFieldStructParser::removeCommentsAndExtraSpaces`. -/
def removeCommentsAndExtraSpaces (l : List Char) : List Char :=
  trim (normChars .norm false l)

/-- Pure whitespace collapsing: every maximal run of `isSpaceChar`
characters becomes a single `' '`; the `Bool` says whether the previous
emitted character was a space.  This is also the effect of
`std::regex_replace(line, std::regex("\\s+"), " ")`. -/
def collapse : Bool → List Char → List Char
  | _, [] => []
  | b, c :: r =>
    if isSpaceChar c then
      if b then collapse true r else ' ' :: collapse true r
    else
      c :: collapse false r

/-- Comment stripping alone, with the conventions the source actually
implements: a `//` comment terminated by `'\n'` becomes one `' '`, a
`/* */` comment is deleted with no replacement, an unterminated comment
swallows the rest of the input.  Whitespace is copied through verbatim. -/
def stripComments : CMode → List Char → List Char
  | .norm, [] => []
  | .slash, [] => ['/']
  | .line, [] => []
  | .block, [] => []
  | .blockStar, [] => []
  | .norm, c :: r =>
    if c = '/' then stripComments .slash r
    else c :: stripComments .norm r
  | .slash, c :: r =>
    if c = '/' then stripComments .line r
    else if c = '*' then stripComments .block r
    else '/' :: c :: stripComments .norm r
  | .line, c :: r =>
    if c = '\n' then ' ' :: stripComments .norm r else stripComments .line r
  | .block, c :: r =>
    if c = '*' then stripComments .blockStar r else stripComments .block r
  | .blockStar, c :: r =>
    if c = '/' then stripComments .norm r
    else if c = '*' then stripComments .blockStar r
    else stripComments .block r

/-- Modelled from the spec: the spec's Normalizer contract says comments
are stripped "replacing each with a single separator so field boundaries
are not merged".  This stripper therefore replaces every comment — line or
block — by one `' '`.  It exists only to state claim C3 as written and is
deliberately NOT what the source does. -/
def stripCommentsSpecSep : CMode → List Char → List Char
  | .norm, [] => []
  | .slash, [] => ['/']
  | .line, [] => []
  | .block, [] => []
  | .blockStar, [] => []
  | .norm, c :: r =>
    if c = '/' then stripCommentsSpecSep .slash r
    else c :: stripCommentsSpecSep .norm r
  | .slash, c :: r =>
    if c = '/' then stripCommentsSpecSep .line r
    else if c = '*' then stripCommentsSpecSep .block r
    else '/' :: c :: stripCommentsSpecSep .norm r
  | .line, c :: r =>
    if c = '\n' then ' ' :: stripCommentsSpecSep .norm r else stripCommentsSpecSep .line r
  | .block, c :: r =>
    if c = '*' then stripCommentsSpecSep .blockStar r else stripCommentsSpecSep .block r
  | .blockStar, c :: r =>
    if c = '/' then ' ' :: stripCommentsSpecSep .norm r
    else if c = '*' then stripCommentsSpecSep .blockStar r
    else stripCommentsSpecSep .block r

/-- The comment-free equivalent of a text under the conventions the source
implements (`stripComments`), with whitespace collapsed and trimmed. -/
def strippedEquiv (l : List Char) : List Char :=
  trim (collapse false (stripComments .norm l))

/-- The comment-free equivalent of a text under the spec's stated
convention (every comment replaced by a separator). -/
def strippedEquivSpec (l : List Char) : List Char :=
  trim (collapse false (stripCommentsSpecSep .norm l))

/-- `true` when the list contains no comment start (`//` or `/*`). -/
def noCS : List Char → Bool
  | [] => true
  | c :: r => if c = '/' && (r.head? = some '/' || r.head? = some '*') then false else noCS r

/-- The `Bool` state of `collapse` after processing a list: whether the
last character processed was whitespace. -/
def flagAfter : Bool → List Char → Bool
  | b, [] => b
  | _, c :: r => flagAfter (isSpaceChar c) r

/-- All whitespace characters of the list are plain `' '` (true of every
`normChars` output, where the 4-character trim set and the 6-character
`isspace` set agree). -/
def onlySpaces (l : List Char) : Prop :=
  ∀ c ∈ l, isSpaceChar c = true → c = ' '

/-- A classified field declaration (the data filled in by the regex
dispatch of `parseStruct` before layout). -/
structure Field where
  type : List Char
  name : List Char
  bitWidth : Nat
  isBitField : Bool
  isAnonymous : Bool
deriving DecidableEq

/-- `BitFieldStructParser::FieldInfo` after layout. -/
structure FieldInfo where
  type : List Char
  name : List Char
  bitWidth : Nat
  byteOffset : Nat
  bitOffset : Nat
  size : Nat
  isBitField : Bool
  isAnonymous : Bool
deriving DecidableEq

/-- `BitFieldStructParser::StructInfo`. -/
structure StructInfo where
  name : List Char
  fields : List FieldInfo
  totalSize : Nat
deriving DecidableEq

/-- The exceptions thrown by the parser and the accessors. -/
inductive ParseError
  | unknownType (t : List Char)
  | structBodyNotFound
  | fieldNotFound (n : List Char)
deriving DecidableEq

/-- The fixed primitive-type registry built by `initializeTypeSizes`. -/
def typeSizes (t : List Char) : Option Nat :=
  if t = "uint8_t".toList then some 1
  else if t = "int8_t".toList then some 1
  else if t = "char".toList then some 1
  else if t = "uint16_t".toList then some 2
  else if t = "int16_t".toList then some 2
  else if t = "short".toList then some 2
  else if t = "uint32_t".toList then some 4
  else if t = "int32_t".toList then some 4
  else if t = "float".toList then some 4
  else if t = "uint64_t".toList then some 8
  else if t = "int64_t".toList then some 8
  else if t = "double".toList then some 8
  else none

/-- `BitFieldStructParser::getTypeSize`: registry lookup, throwing
`Unknown type` on a token outside the registry. -/
def getTypeSize (t : List Char) : Except ParseError Nat :=
  match typeSizes t with
  | some n => .ok n
  | none => .error (.unknownType t)

/-- One attempt of `struct\s+(\w+)\s*\{` at the current position: literal
`struct`, at least one whitespace, a maximal nonempty `\w+` run (the
captured name), any whitespace, then `{`.  The character classes are
pairwise disjoint, so the backtracking regex is equivalent to maximal-run
matching. -/
def matchStructAt (l : List Char) : Option (List Char) :=
  if l.take 6 = "struct".toList then
    let r := l.drop 6
    let sp := r.takeWhile isSpaceChar
    let r1 := r.dropWhile isSpaceChar
    if sp = [] then none
    else
      let nm := r1.takeWhile isWordChar
      let r2 := r1.dropWhile isWordChar
      if nm = [] then none
      else if (r2.dropWhile isSpaceChar).head? = some '{' then some nm
      else none
  else none

/-- `std::regex_search` with `struct\s+(\w+)\s*\{`: the leftmost position
admitting a match, returning the captured struct name. -/
def structNameOf : List Char → Option (List Char)
  | [] => none
  | c :: r =>
    match matchStructAt (c :: r) with
    | some nm => some nm
    | none => structNameOf r

/-- The suffix after the first `{`, or `none` if there is no `{`. -/
def afterFirstBrace : List Char → Option (List Char)
  | [] => none
  | c :: r => if c = '{' then some r else afterFirstBrace r

/-- The prefix before the last `}`, or `none` if there is no `}`. -/
def beforeLastClose : List Char → Option (List Char)
  | [] => none
  | c :: r =>
    match beforeLastClose r with
    | some q => some (c :: q)
    | none => if c = '}' then some [] else none

/-- `std::regex_search` with `\{(.*)\}` (leftmost match, greedy `.*`): the
text strictly between the first `{` and the last `}`, provided the latter
comes after the former.  `parseStruct` only applies this to normalized
text, which contains no newline, so the fact that `.` does not match a
newline never bites. -/
def contentOf (l : List Char) : Option (List Char) :=
  match afterFirstBrace l with
  | none => none
  | some r => beforeLastClose r

/-- `BitFieldStructParser::splitFields` worker: split on `;` at nesting
level 0, push `trim cur` whenever `cur` is nonempty. -/
def splitFieldsAux : List Char → List Char → Int → List (List Char)
  | [], cur, _ => if cur = [] then [] else [trim cur]
  | c :: r, cur, lvl =>
    let lvl' : Int := if c = '{' then lvl + 1 else if c = '}' then lvl - 1 else lvl
    if c = ';' && lvl' = 0 then
      if cur = [] then splitFieldsAux r [] lvl'
      else trim cur :: splitFieldsAux r [] lvl'
    else
      splitFieldsAux r (cur ++ [c]) lvl'

/-- `BitFieldStructParser::splitFields`. -/
def splitFields (content : List Char) : List (List Char) :=
  splitFieldsAux content [] 0

/-- `simplifiedLine`: `regex_replace(fieldLine, "\s+", " ")` then `trim`. -/
def simplifyLine (l : List Char) : List Char :=
  trim (collapse false l)

/-- `regex_match` against `(\w+)\s+(\w*)\s*:\s*(\d+)` (the named bit-field
grammar; the name capture `\w*` may be empty).  Character classes are
disjoint, so the match is equivalent to: maximal nonempty `\w` run, at
least one space, maximal (possibly empty) `\w` run, optional spaces, `:`,
optional spaces, then a nonempty all-digit remainder. -/
def matchBitField (l : List Char) : Option (List Char × List Char × List Char) :=
  let ty := l.takeWhile isWordChar
  let r0 := l.dropWhile isWordChar
  if ty = [] then none
  else
    let sp := r0.takeWhile isSpaceChar
    let r1 := r0.dropWhile isSpaceChar
    if sp = [] then none
    else
      let nm := r1.takeWhile isWordChar
      let r2 := (r1.dropWhile isWordChar).dropWhile isSpaceChar
      if r2.head? = some ':' then
        let r4 := r2.tail.dropWhile isSpaceChar
        let digs := r4.takeWhile isDigitChar
        if digs ≠ [] && r4.dropWhile isDigitChar = [] then some (ty, nm, digs)
        else none
      else none

/-- `regex_match` against `(\w+)\s*:\s*(\d+)` (anonymous bit-field). -/
def matchAnonBitField (l : List Char) : Option (List Char × List Char) :=
  let ty := l.takeWhile isWordChar
  let r0 := (l.dropWhile isWordChar).dropWhile isSpaceChar
  if ty = [] then none
  else if r0.head? = some ':' then
    let r2 := r0.tail.dropWhile isSpaceChar
    let digs := r2.takeWhile isDigitChar
    if digs ≠ [] && r2.dropWhile isDigitChar = [] then some (ty, digs)
    else none
  else none

/-- `regex_match` against `(\w+)\s+(\w+)` (plain field, exact). -/
def matchNormalField (l : List Char) : Option (List Char × List Char) :=
  let ty := l.takeWhile isWordChar
  let r0 := l.dropWhile isWordChar
  if ty = [] then none
  else
    let sp := r0.takeWhile isSpaceChar
    let r1 := r0.dropWhile isSpaceChar
    if sp = [] then none
    else
      let nm := r1.takeWhile isWordChar
      if nm ≠ [] && r1.dropWhile isWordChar = [] then some (ty, nm)
      else none

/-- `regex_match` against `(\w+)\s+(\w+).*` (plain field with trailing
tokens).  `parseStruct` only applies this to lines without newlines, so
`.*` always matches the remainder. -/
def matchNormalLoose (l : List Char) : Option (List Char × List Char) :=
  let ty := l.takeWhile isWordChar
  let r0 := l.dropWhile isWordChar
  if ty = [] then none
  else
    let sp := r0.takeWhile isSpaceChar
    let r1 := r0.dropWhile isSpaceChar
    if sp = [] then none
    else
      let nm := r1.takeWhile isWordChar
      if nm ≠ [] then some (ty, nm) else none

/-- Decimal value of a digit string (`std::stoi` on a `\d+` capture). -/
def decimalOf (l : List Char) : Nat :=
  l.foldl (fun acc c => acc * 10 + (c.toNat - '0'.toNat)) 0

/-- The regex dispatch of the `parseStruct` field loop, in source order:
named bit-field, anonymous bit-field, exact plain field, loose plain
field; `none` is the unparsable case (skipped with a warning). -/
def classifyLine (fieldLine : List Char) : Option Field :=
  let s := simplifyLine fieldLine
  match matchBitField s with
  | some (ty, nm, digs) =>
    some ⟨ty, nm, decimalOf digs, true, false⟩
  | none =>
    match matchAnonBitField s with
    | some (ty, digs) => some ⟨ty, [], decimalOf digs, true, true⟩
    | none =>
      match matchNormalField s with
      | some (ty, nm) => some ⟨ty, nm, 0, false, false⟩
      | none =>
        match matchNormalLoose s with
        | some (ty, nm) => some ⟨ty, nm, 0, false, false⟩
        | none => none

/-- Cursor placement for one classified field whose type size is `sz`:
returns the new `(byteCursor, bitCursor)` and the laid-out field. -/
def placeField (f : Field) (sz : Nat) (byte bit : Nat) : (Nat × Nat) × FieldInfo :=
  if !f.isBitField then
    ((byte + sz, 0), ⟨f.type, f.name, f.bitWidth, byte, 0, sz, false, f.isAnonymous⟩)
  else
    let byte1 := if bit + f.bitWidth > sz * 8 then byte + sz else byte
    let bit1 := if bit + f.bitWidth > sz * 8 then 0 else bit
    let fi : FieldInfo := ⟨f.type, f.name, f.bitWidth, byte1, bit1, sz, true, f.isAnonymous⟩
    let bit2 := bit1 + f.bitWidth
    if bit2 ≥ sz * 8 then ((byte1 + sz, 0), fi) else ((byte1, bit2), fi)

/-- The field loop of `parseStruct`: skip empty lines, classify, skip
unparsable lines, look the type up (throwing on unknown types), place the
field, and collect it unless it is anonymous. -/
def parseFields : List (List Char) → Nat → Nat → Except ParseError (List FieldInfo × Nat × Nat)
  | [], byte, bit => .ok ([], byte, bit)
  | line :: rest, byte, bit =>
    if line = [] then parseFields rest byte bit
    else
      match classifyLine line with
      | none => parseFields rest byte bit
      | some f =>
        match getTypeSize f.type with
        | .error e => .error e
        | .ok sz =>
          let ((byte', bit'), fi) := placeField f sz byte bit
          match parseFields rest byte' bit' with
          | .error e => .error e
          | .ok (fis, bEnd, tEnd) =>
            .ok ((if f.isAnonymous then fis else fi :: fis), bEnd, tEnd)

/-- `BitFieldStructParser::parseStruct`.  The total size is the final byte
cursor plus `getTypeSize("uint8_t") = 1` when a bit run is still open. -/
def parseStruct (structText : List Char) : Except ParseError StructInfo :=
  let p := removeCommentsAndExtraSpaces structText
  let name := (structNameOf p).getD []
  match contentOf p with
  | none => .error .structBodyNotFound
  | some content =>
    match parseFields (splitFields content) 0 0 with
    | .error e => .error e
    | .ok (fis, byte, bit) =>
      .ok ⟨name, fis, byte + (if bit > 0 then 1 else 0)⟩

/-- The sum of the registry sizes of the classified declarations of a
field-line list (used to state the no-padding property of the layout). -/
def sumTypeSizes (lines : List (List Char)) : Nat :=
  lines.foldr
    (fun line acc =>
      (match classifyLine line with
       | some f => (typeSizes f.type).getD 0
       | none => 0) + acc)
    0

/-- `BitFieldStructParser::struct_sizeof`. -/
def struct_sizeof (structText : List Char) : Except ParseError Nat :=
  match parseStruct structText with
  | .error e => .error e
  | .ok info => .ok info.totalSize

/-- Little-endian load of `n` bytes starting at `off` (the
`std::memcpy(&container, buffer + off, n)` into a zeroed `uint64_t`). -/
def loadLE (buf : List Nat) (off : Nat) : Nat → Nat
  | 0 => 0
  | n + 1 => buf.getD off 0 + 256 * loadLE buf (off + 1) n

/-- Little-endian store of the low `n` bytes of `v` starting at `off`
(the `std::memcpy(buffer + off, &v, n)`). -/
def storeLE (buf : List Nat) (off : Nat) : Nat → Nat → List Nat
  | 0, _ => buf
  | n + 1, v => storeLE (buf.set off (v % 256)) (off + 1) n (v / 256)

/-- Bitwise complement on a 64-bit container. -/
def not64 (x : Nat) : Nat :=
  x ^^^ (2 ^ 64 - 1)

/-- `BitFieldStructParser::struct_write` with the value modelled as the
64-bit pattern `value % 2 ^ 64` (the source reads `*(uint64_t *)value`).
Shifts of the `uint64_t` intermediates are reduced `% 2 ^ 64`. -/
def struct_write (structText fieldName : List Char) (value : Nat) (buf : List Nat) :
    Except ParseError (List Nat) :=
  match parseStruct structText with
  | .error e => .error e
  | .ok info =>
    match info.fields.find? (fun fi => fi.name = fieldName) with
    | none => .error (.fieldNotFound fieldName)
    | some f =>
      if !f.isBitField then
        .ok (storeLE buf f.byteOffset f.size value)
      else
        let mask := (2 ^ f.bitWidth - 1) % 2 ^ 64
        let fieldValue := (value % 2 ^ 64) &&& mask
        let current := loadLE buf f.byteOffset f.size
        let cleared := current &&& not64 ((mask <<< f.bitOffset) % 2 ^ 64)
        let newVal := cleared ||| ((fieldValue <<< f.bitOffset) % 2 ^ 64)
        .ok (storeLE buf f.byteOffset f.size newVal)

/-- `BitFieldStructParser::struct_read`, returning the container bytes for
a plain field and the extracted unsigned value for a bit-field. -/
def struct_read (structText fieldName : List Char) (buf : List Nat) :
    Except ParseError Nat :=
  match parseStruct structText with
  | .error e => .error e
  | .ok info =>
    match info.fields.find? (fun fi => fi.name = fieldName) with
    | none => .error (.fieldNotFound fieldName)
    | some f =>
      if !f.isBitField then
        .ok (loadLE buf f.byteOffset f.size)
      else
        let mask := (2 ^ f.bitWidth - 1) % 2 ^ 64
        .ok ((loadLE buf f.byteOffset f.size >>> f.bitOffset) &&& mask)

/-! ### Character-class facts -/

theorem isSpaceChar_spc : isSpaceChar ' ' = true := rfl

theorem isTrimChar_isSpaceChar {c : Char} (h : isTrimChar c = true) :
    isSpaceChar c = true := by
  simp only [isTrimChar, Bool.or_eq_true, decide_eq_true_eq] at h
  simp only [isSpaceChar, Bool.or_eq_true, decide_eq_true_eq]
  tauto

theorem isTrimChar_spc : isTrimChar ' ' = true := rfl

theorem isSpaceChar_not_word {c : Char} (h : isSpaceChar c = true) :
    isWordChar c = false := by
  simp only [isSpaceChar, Bool.or_eq_true, decide_eq_true_eq] at h
  rcases h with ((((rfl | rfl) | rfl) | rfl) | rfl) | rfl <;> decide

theorem isWordChar_not_space {c : Char} (h : isWordChar c = true) :
    isSpaceChar c = false := by
  cases hs : isSpaceChar c
  · rfl
  · rw [isSpaceChar_not_word hs] at h; cases h

/-! ### `collapse` basics -/

theorem collapse_nil_iff_false {l : List Char} : collapse false l = [] ↔ l = [] := by
  cases l with
  | nil => simp [collapse]
  | cons c r =>
    simp only [collapse]
    split <;> simp

theorem collapse_cons_not_space {c : Char} (h : isSpaceChar c = false) (b : Bool)
    (r : List Char) : collapse b (c :: r) = c :: collapse false r := by
  simp [collapse, h]

theorem collapse_idem_all (l : List Char) :
    collapse false (collapse false l) = collapse false l ∧
    collapse false (collapse true l) = collapse true l ∧
    collapse true (collapse true l) = collapse true l := by
  induction l with
  | nil => simp [collapse]
  | cons c r ih =>
    by_cases hc : isSpaceChar c = true
    · simp only [collapse, hc, if_true]
      refine ⟨?_, ih.2.1, ih.2.2⟩
      simpa [collapse, isSpaceChar_spc] using ih.2.2
    · simp only [Bool.not_eq_true] at hc
      refine ⟨?_, ?_, ?_⟩ <;> simp only [collapse_cons_not_space hc] <;> rw [ih.1]

theorem collapse_idem (b : Bool) (l : List Char) :
    collapse false (collapse b l) = collapse b l := by
  cases b
  · exact (collapse_idem_all l).1
  · exact (collapse_idem_all l).2.1

theorem collapse_append (x y : List Char) (b : Bool) :
    collapse b (x ++ y) = collapse b x ++ collapse (flagAfter b x) y := by
  induction x generalizing b with
  | nil => simp [collapse, flagAfter]
  | cons c r ih =>
    by_cases hc : isSpaceChar c = true
    · cases b <;> simp [collapse, hc, flagAfter, ih]
    · simp only [Bool.not_eq_true] at hc
      simp [collapse_cons_not_space hc, flagAfter, hc, ih]

theorem flagAfter_append (b : Bool) (x y : List Char) :
    flagAfter b (x ++ y) = flagAfter (flagAfter b x) y := by
  induction x generalizing b with
  | nil => simp [flagAfter]
  | cons c r ih => simp [flagAfter, ih]

theorem onlySpaces_collapse (b : Bool) (l : List Char) : onlySpaces (collapse b l) := by
  induction l generalizing b with
  | nil => intro c hc; simp [collapse] at hc
  | cons c r ih =>
    by_cases hc : isSpaceChar c = true
    · simp only [collapse, hc, if_true]
      split
      · exact ih true
      · intro d hd _
        rcases List.mem_cons.mp hd with h | h
        · exact h
        · exact ih true d h ‹_›
    · simp only [Bool.not_eq_true] at hc
      rw [collapse_cons_not_space hc]
      intro d hd hsp
      rcases List.mem_cons.mp hd with h | h
      · subst h; rw [hc] at hsp; cases hsp
      · exact ih false d h hsp

/-! ### The fused machine versus the pure comment stripper -/

theorem collapse_normChars (m : CMode) (b : Bool) (l : List Char) :
    collapse b (normChars m b l) = collapse b (stripComments m l) := by
  induction m, b, l using normChars.induct with
  | case1 b => rfl
  | case2 b => rfl
  | case3 b => rfl
  | case4 b => rfl
  | case5 b => rfl
  | case6 b r ih => simpa [normChars, stripComments] using ih
  | case7 c r hc hsp ih =>
    simp [normChars, stripComments, hc, hsp, collapse, isSpaceChar_spc, ih]
  | case8 b c r hc hsp hb ih =>
    simp only [Bool.not_eq_true] at hb; subst hb
    simp [normChars, stripComments, hc, hsp, collapse, isSpaceChar_spc, ih]
  | case9 b c r hc hsp ih =>
    simp only [Bool.not_eq_true] at hsp
    simp [normChars, stripComments, hc, hsp, collapse_cons_not_space hsp, ih]
  | case10 b r ih => simpa [normChars, stripComments] using ih
  | case11 b r h ih => simpa [normChars, stripComments] using ih
  | case12 b c r hc hst iht ihf =>
    by_cases hsp : isSpaceChar c = true
    · simp [normChars, stripComments, hc, hst, hsp, collapse, isSpaceChar_spc,
        iht]
    · simp only [Bool.not_eq_true] at hsp
      simp [normChars, stripComments, hc, hst, hsp, collapse,
        collapse_cons_not_space hsp, ihf]
  | case13 b r ih =>
    simp [normChars, stripComments, collapse, isSpaceChar_spc, ih]
  | case14 b c r hc ih => simpa [normChars, stripComments, hc] using ih
  | case15 b r ih => simpa [normChars, stripComments] using ih
  | case16 b c r hc ih => simpa [normChars, stripComments, hc] using ih
  | case17 b r ih => simpa [normChars, stripComments] using ih
  | case18 b r h ih => simpa [normChars, stripComments] using ih
  | case19 b c r hc hst ih => simpa [normChars, stripComments, hc, hst] using ih

/-! ### Comment-free strings -/

theorem noCS_cons {c : Char} {r : List Char} (h : noCS (c :: r) = true) :
    noCS r = true := by
  simp only [noCS] at h
  split at h
  · cases h
  · exact h

theorem noCS_cons_not_start {c : Char} {r : List Char} (h : noCS (c :: r) = true) :
    (c = '/' && (r.head? = some '/' || r.head? = some '*')) = false := by
  simp only [noCS] at h
  by_cases hg : (c = '/' && (r.head? = some '/' || r.head? = some '*')) = true
  · rw [if_pos hg] at h; cases h
  · simpa using hg

theorem noCS_cons_of {c : Char} {r : List Char} (hg : (c = '/' ∧ (r.head? = some '/' ∨ r.head? = some '*')) → False) (h : noCS r = true) : noCS (c :: r) = true := by
  simp only [noCS]
  rw [if_neg]
  · exact h
  · simp only [Bool.and_eq_true, Bool.or_eq_true, decide_eq_true_eq]
    intro hx
    exact hg ⟨hx.1, by simpa using hx.2⟩

theorem noCS_stripComments (m : CMode) (l : List Char) :
    noCS (stripComments m l) = true := by
  induction m, l using stripComments.induct with
  | case1 => rfl
  | case2 => rfl
  | case3 => rfl
  | case4 => rfl
  | case5 => rfl
  | case6 r ih => simpa [stripComments] using ih
  | case7 c r hc ih =>
    rw [stripComments, if_neg hc]
    exact noCS_cons_of (fun hx => hc hx.1) ih
  | case8 r ih => simpa [stripComments] using ih
  | case9 r h ih => simpa [stripComments, h] using ih
  | case10 c r hc hst ih =>
    rw [stripComments, if_neg hc, if_neg hst]
    refine noCS_cons_of ?_ (noCS_cons_of (fun hx => hc hx.1) ih)
    rintro ⟨-, h | h⟩ <;> simp only [List.head?, Option.some.injEq] at h
    · exact hc h
    · exact hst h
  | case11 r ih =>
    rw [stripComments, if_pos rfl]
    exact noCS_cons_of (by rintro ⟨h, -⟩; cases h) ih
  | case12 c r hc ih => simpa [stripComments, hc] using ih
  | case13 r ih => simpa [stripComments] using ih
  | case14 c r hc ih => simpa [stripComments, hc] using ih
  | case15 r ih => simpa [stripComments] using ih
  | case16 r h ih => simpa [stripComments, h] using ih
  | case17 c r hc hst ih => simpa [stripComments, hc, hst] using ih

theorem normChars_of_noCS_pair (l : List Char) :
    (noCS l = true → ∀ b, normChars .norm b l = collapse b l) ∧
    ((l.head? = some '/' → False) → (l.head? = some '*' → False) → noCS l = true →
      ∀ b, normChars .slash b l = '/' :: collapse false l) := by
  induction l with
  | nil => exact ⟨fun _ b => rfl, fun _ _ _ b => rfl⟩
  | cons c r ih =>
    constructor
    · intro h b
      by_cases hc : c = '/'
      · subst hc
        have hg := noCS_cons_not_start h
        simp at hg
        rw [show normChars .norm b ('/' :: r) = normChars .slash b r from by
          simp [normChars]]
        rw [ih.2 (fun hx => hg.1 (by simpa using hx)) (fun hx => hg.2 (by simpa using hx))
          (noCS_cons h) b]
        rw [collapse_cons_not_space (show isSpaceChar '/' = false from rfl)]
      · by_cases hsp : isSpaceChar c = true
        · cases b <;>
            simp [normChars, collapse, hc, hsp, ih.1 (noCS_cons h)]
        · simp only [Bool.not_eq_true] at hsp
          simp [normChars, collapse_cons_not_space hsp, hc, hsp,
            ih.1 (noCS_cons h)]
    · intro h1 h2 h b
      by_cases hc : c = '/'
      · subst hc; exact (h1 rfl).elim
      · by_cases hst : c = '*'
        · subst hst; exact (h2 rfl).elim
        · by_cases hsp : isSpaceChar c = true
          · simp [normChars, collapse, hc, hst, hsp, ih.1 (noCS_cons h)]
          · simp only [Bool.not_eq_true] at hsp
            simp [normChars, collapse_cons_not_space hsp, hc, hst, hsp,
              ih.1 (noCS_cons h)]

theorem normChars_of_noCS {l : List Char} (h : noCS l = true) (b : Bool) :
    normChars .norm b l = collapse b l :=
  (normChars_of_noCS_pair l).1 h b

theorem onlySpaces_normChars (m : CMode) (b : Bool) (l : List Char) :
    onlySpaces (normChars m b l) := by
  induction m, b, l using normChars.induct with
  | case1 b =>
    intro c hc
    cases hc
  | case2 b =>
    intro c hc hsp
    simp only [normChars, List.mem_singleton] at hc
    subst hc
    cases hsp
  | case3 b =>
    intro c hc
    cases hc
  | case4 b =>
    intro c hc
    cases hc
  | case5 b =>
    intro c hc
    cases hc
  | case6 b r ih => simpa [normChars] using ih
  | case7 c r hc hsp ih => simpa [normChars, hc, hsp] using ih
  | case8 b c r hc hsp hb ih =>
    simp only [Bool.not_eq_true] at hb; subst hb
    simp only [normChars, if_neg hc, hsp, if_true, if_false, Bool.false_eq_true]
    intro d hd hds
    rcases List.mem_cons.mp hd with h | h
    · exact h
    · exact ih d h hds
  | case9 b c r hc hsp ih =>
    simp only [Bool.not_eq_true] at hsp
    simp only [normChars, if_neg hc, hsp, if_false, Bool.false_eq_true]
    intro d hd hds
    rcases List.mem_cons.mp hd with h | h
    · subst h; rw [hsp] at hds; cases hds
    · exact ih d h hds
  | case10 b r ih => simpa [normChars] using ih
  | case11 b r h ih => simpa [normChars, h] using ih
  | case12 b c r hc hst iht ihf =>
    simp only [normChars, if_neg hc, if_neg hst]
    intro d hd hds
    rcases List.mem_cons.mp hd with h | h
    · subst h; cases hds
    · by_cases hsp : isSpaceChar c = true
      · rw [if_pos hsp] at h
        rcases List.mem_cons.mp h with h' | h'
        · exact h'
        · exact iht d h' hds
      · rw [if_neg hsp] at h
        simp only [Bool.not_eq_true] at hsp
        rcases List.mem_cons.mp h with h' | h'
        · subst h'; rw [hsp] at hds; cases hds
        · exact ihf d h' hds
  | case13 b r ih =>
    simp only [normChars, if_pos rfl]
    intro d hd hds
    rcases List.mem_cons.mp hd with h | h
    · exact h
    · exact ih d h hds
  | case14 b c r hc ih => simpa [normChars, hc] using ih
  | case15 b r ih => simpa [normChars] using ih
  | case16 b c r hc ih => simpa [normChars, hc] using ih
  | case17 b r ih => simpa [normChars] using ih
  | case18 b r h ih => simpa [normChars] using ih
  | case19 b c r hc hst ih => simpa [normChars, hc, hst] using ih

/-! ### trim and collapse commute on only-space strings -/

theorem mem_dropWhileChar {p : Char → Bool} {c : Char} {l : List Char}
    (h : c ∈ l.dropWhile p) : c ∈ l := by
  induction l with
  | nil => simpa [List.dropWhile] using h
  | cons d r ih =>
    by_cases hd : p d
    · simp only [List.dropWhile, hd, if_true] at h
      exact List.mem_cons_of_mem d (ih h)
    · simp only [List.dropWhile, hd] at h
      simpa using h

theorem mem_dropTrailing {p : Char → Bool} {c : Char} {l : List Char}
    (h : c ∈ dropTrailing p l) : c ∈ l := by
  induction l with
  | nil => simpa [dropTrailing] using h
  | cons d r ih =>
    simp only [dropTrailing] at h
    split at h
    · cases h
    · rcases List.mem_cons.mp h with h | h
      · exact h ▸ List.mem_cons_self d r
      · exact List.mem_cons_of_mem d (ih h)

theorem onlySpaces_cons {c : Char} {l : List Char} (h : onlySpaces (c :: l)) :
    onlySpaces l :=
  fun d hd => h d (List.mem_cons_of_mem c hd)

theorem onlySpaces_dropWhile {p : Char → Bool} {l : List Char} (h : onlySpaces l) :
    onlySpaces (l.dropWhile p) :=
  fun d hd => h d (mem_dropWhileChar hd)

theorem onlySpaces_dropTrailing {p : Char → Bool} {l : List Char} (h : onlySpaces l) :
    onlySpaces (dropTrailing p l) :=
  fun d hd => h d (mem_dropTrailing hd)

theorem onlySpaces_trim {l : List Char} (h : onlySpaces l) : onlySpaces (trim l) :=
  onlySpaces_dropTrailing (onlySpaces_dropWhile h)

theorem not_isTrimChar_of_not_space {c : Char} (h : isSpaceChar c = false) :
    isTrimChar c = false := by
  cases ht : isTrimChar c
  · rfl
  · rw [isTrimChar_isSpaceChar ht] at h; cases h

theorem collapse_true_nil_iff {l : List Char} :
    collapse true l = [] ↔ ∀ c ∈ l, isSpaceChar c = true := by
  induction l with
  | nil => simp [collapse]
  | cons c r ih =>
    by_cases hc : isSpaceChar c = true
    · simp [collapse, hc, ih]
    · simp [collapse, hc]

theorem dropTrailing_nil_iff {p : Char → Bool} {l : List Char} :
    dropTrailing p l = [] ↔ ∀ c ∈ l, p c = true := by
  induction l with
  | nil => simp [dropTrailing]
  | cons c r ih =>
    simp only [dropTrailing]
    split <;> rename_i hcond
    · simp only [Bool.and_eq_true, decide_eq_true_eq] at hcond
      simp only [List.mem_cons, true_iff]
      intro d hd
      rcases hd with rfl | hd
      · exact hcond.2
      · exact ih.mp hcond.1 d hd
    · simp only [List.cons_ne_nil, false_iff]
      intro hall
      exact hcond (by simp [ih.mpr fun d hd => hall d (List.mem_cons_of_mem c hd),
        hall c (List.mem_cons_self c r)])

theorem dropWhile_collapse {l : List Char} (os : onlySpaces l) (b : Bool) :
    (collapse b l).dropWhile isTrimChar = collapse false (l.dropWhile isTrimChar) := by
  induction l generalizing b with
  | nil => simp [collapse]
  | cons c r ih =>
    by_cases hsp : isSpaceChar c = true
    · have hc : c = ' ' := os c (List.mem_cons_self c r) hsp
      subst hc
      cases b
      · simp only [collapse, isSpaceChar_spc, if_true, Bool.false_eq_true, if_false]
        simp only [List.dropWhile, isTrimChar_spc, if_true]
        exact ih (onlySpaces_cons os) true
      · simp only [collapse, isSpaceChar_spc, if_true]
        simp only [List.dropWhile, isTrimChar_spc, if_true]
        exact ih (onlySpaces_cons os) true
    · simp only [Bool.not_eq_true] at hsp
      rw [collapse_cons_not_space hsp]
      simp only [List.dropWhile, not_isTrimChar_of_not_space hsp, if_false,
        Bool.false_eq_true]
      rw [collapse_cons_not_space hsp]

theorem dropTrailing_cons (p : Char → Bool) (c : Char) (r : List Char) :
    dropTrailing p (c :: r) =
      if dropTrailing p r = [] ∧ p c = true then [] else c :: dropTrailing p r := by
  simp only [dropTrailing]
  by_cases h1 : dropTrailing p r = [] <;> by_cases h2 : p c = true <;>
    simp [h1, h2]

theorem collapse_cons_space_false (r : List Char) :
    collapse false (' ' :: r) = ' ' :: collapse true r := by
  simp [collapse, isSpaceChar_spc]

theorem dropTrailing_nil_or_exists (p : Char → Bool) (l : List Char) :
    dropTrailing p l = [] ∨ ∃ c ∈ dropTrailing p l, p c = false := by
  induction l with
  | nil => left; rfl
  | cons c r ih =>
    rw [dropTrailing_cons]
    by_cases h : dropTrailing p r = [] ∧ p c = true
    · left; rw [if_pos h]
    · right
      rw [if_neg h]
      rcases ih with h1 | ⟨d, hd, hpd⟩
      · have hpc : p c = false := by
          cases hp : p c
          · rfl
          · exact absurd ⟨h1, hp⟩ h
        exact ⟨c, List.mem_cons_self c _, hpc⟩
      · exact ⟨d, List.mem_cons_of_mem c hd, hpd⟩

theorem collapse_cons_space_true (r : List Char) :
    collapse true (' ' :: r) = collapse true r := by
  simp [collapse, isSpaceChar_spc]

theorem dropTrailing_collapse {l : List Char} (os : onlySpaces l) (b : Bool) :
    dropTrailing isTrimChar (collapse b l) = collapse b (dropTrailing isTrimChar l) := by
  induction l generalizing b with
  | nil => simp [collapse, dropTrailing]
  | cons c r ih =>
    by_cases hsp : isSpaceChar c = true
    · have hc : c = ' ' := os c (List.mem_cons_self c r) hsp
      subst hc
      by_cases hnil : dropTrailing isTrimChar r = []
      · have hX : dropTrailing isTrimChar (collapse true r) = [] := by
          rw [ih (onlySpaces_cons os) true, hnil]; rfl
        have hR : dropTrailing isTrimChar (' ' :: r) = [] := by
          rw [dropTrailing_cons, if_pos ⟨hnil, isTrimChar_spc⟩]
        cases b
        · rw [hR, collapse_cons_space_false, dropTrailing_cons, hX,
            if_pos ⟨rfl, isTrimChar_spc⟩]
          rfl
        · rw [hR, collapse_cons_space_true, ih (onlySpaces_cons os) true, hnil]
      · have hXne : dropTrailing isTrimChar (collapse true r) ≠ [] := by
          rw [ih (onlySpaces_cons os) true]
          intro hx
          rcases dropTrailing_nil_or_exists isTrimChar r with h1 | ⟨d, hd, hpd⟩
          · exact hnil h1
          · have hds : isSpaceChar d = true := collapse_true_nil_iff.mp hx d hd
            have hd2 : d = ' ' := (onlySpaces_dropTrailing (onlySpaces_cons os)) d hd hds
            rw [hd2, isTrimChar_spc] at hpd
            cases hpd
        have hR : dropTrailing isTrimChar (' ' :: r) = ' ' :: dropTrailing isTrimChar r := by
          rw [dropTrailing_cons, if_neg (fun hx => hnil hx.1)]
        cases b
        · rw [hR, collapse_cons_space_false, collapse_cons_space_false,
            dropTrailing_cons, if_neg (fun hx => hXne hx.1),
            ih (onlySpaces_cons os) true]
        · rw [hR, collapse_cons_space_true, collapse_cons_space_true]
          exact ih (onlySpaces_cons os) true
    · simp only [Bool.not_eq_true] at hsp
      have htc := not_isTrimChar_of_not_space hsp
      rw [collapse_cons_not_space hsp, dropTrailing_cons, dropTrailing_cons,
        if_neg (fun hx => by rw [htc] at hx; exact Bool.false_ne_true hx.2),
        if_neg (fun hx => by rw [htc] at hx; exact Bool.false_ne_true hx.2),
        collapse_cons_not_space hsp, ih (onlySpaces_cons os)]

theorem trim_collapse {l : List Char} (os : onlySpaces l) :
    trim (collapse false l) = collapse false (trim l) := by
  unfold trim
  rw [dropWhile_collapse os false, dropTrailing_collapse (onlySpaces_dropWhile os) false]

/-! ### Idempotence of trim and collapse; noCS preservation -/

theorem dropWhile_idem (p : Char → Bool) (l : List Char) :
    (l.dropWhile p).dropWhile p = l.dropWhile p := by
  induction l with
  | nil => rfl
  | cons c r ih =>
    by_cases hp : p c
    · simp [List.dropWhile, hp, ih]
    · simp [List.dropWhile, hp]

theorem dropTrailing_idem (p : Char → Bool) (l : List Char) :
    dropTrailing p (dropTrailing p l) = dropTrailing p l := by
  induction l with
  | nil => rfl
  | cons c r ih =>
    rw [dropTrailing_cons]
    by_cases h : dropTrailing p r = [] ∧ p c = true
    · rw [if_pos h]; rfl
    · rw [if_neg h, dropTrailing_cons, ih, if_neg h]

theorem dropWhile_dropTrailing_comm (p : Char → Bool) (l : List Char) :
    (dropTrailing p l).dropWhile p = dropTrailing p (l.dropWhile p) := by
  induction l with
  | nil => rfl
  | cons c r ih =>
    by_cases hp : p c = true
    · rw [dropTrailing_cons]
      by_cases h1 : dropTrailing p r = []
      · rw [if_pos ⟨h1, hp⟩]
        have hall : ∀ x ∈ r, p x = true := dropTrailing_nil_iff.mp h1
        have hdw : r.dropWhile p = [] := List.dropWhile_eq_nil_iff.mpr hall
        simp [List.dropWhile, hp, hdw, dropTrailing]
      · rw [if_neg (fun hx => h1 hx.1)]
        simp only [List.dropWhile, hp, if_true]
        exact ih
    · have hpf : p c = false := by simpa using hp
      rw [dropTrailing_cons, if_neg (fun hx => hp hx.2)]
      simp [List.dropWhile, hpf]
      rw [dropTrailing_cons, if_neg (fun hx => hp hx.2)]

theorem trim_idem (l : List Char) : trim (trim l) = trim l := by
  unfold trim
  rw [dropWhile_dropTrailing_comm, dropWhile_idem, dropTrailing_idem]

theorem noCS_dropWhile (p : Char → Bool) {l : List Char} (h : noCS l = true) :
    noCS (l.dropWhile p) = true := by
  induction l with
  | nil => exact h
  | cons c r ih =>
    by_cases hp : p c
    · simp only [List.dropWhile, hp, if_true]
      exact ih (noCS_cons h)
    · simpa [List.dropWhile, hp] using h

theorem dropTrailing_append_exists (p : Char → Bool) (l : List Char) :
    ∃ y, l = dropTrailing p l ++ y := by
  induction l with
  | nil => exact ⟨[], rfl⟩
  | cons c r ih =>
    rw [dropTrailing_cons]
    by_cases h : dropTrailing p r = [] ∧ p c = true
    · exact ⟨c :: r, by rw [if_pos h]; rfl⟩
    · rcases ih with ⟨y, hy⟩
      exact ⟨y, by rw [if_neg h]; exact congrArg (c :: ·) hy⟩

theorem noCS_slash_head {r : List Char} (h : noCS ('/' :: r) = true) :
    (r.head? = some '/' → False) ∧ (r.head? = some '*' → False) := by
  have hg := noCS_cons_not_start h
  constructor <;> intro hx <;> rw [hx] at hg <;> simp at hg

theorem noCS_append_left {x y : List Char} (h : noCS (x ++ y) = true) :
    noCS x = true := by
  induction x with
  | nil => rfl
  | cons c x ih =>
    have ht : noCS (x ++ y) = true := noCS_cons (c := c) (by simpa using h)
    refine noCS_cons_of ?_ (ih ht)
    rintro ⟨rfl, hh⟩
    rcases x with _ | ⟨d, x'⟩
    · simp at hh
    · have hg := noCS_slash_head (r := d :: x' ++ y) (by simpa using h)
      rcases hh with hh | hh <;> simp only [List.head?, Option.some.injEq] at hh
      · exact hg.1 (by simp [hh])
      · exact hg.2 (by simp [hh])

theorem noCS_dropTrailing (p : Char → Bool) {l : List Char} (h : noCS l = true) :
    noCS (dropTrailing p l) = true := by
  rcases dropTrailing_append_exists p l with ⟨y, hy⟩
  rw [hy] at h
  exact noCS_append_left h

theorem noCS_trim {l : List Char} (h : noCS l = true) : noCS (trim l) = true :=
  noCS_dropTrailing _ (noCS_dropWhile _ h)

theorem noCS_collapse {l : List Char} (h : noCS l = true) (b : Bool) :
    noCS (collapse b l) = true := by
  induction l generalizing b with
  | nil => cases b <;> rfl
  | cons c r ih =>
    by_cases hsp : isSpaceChar c = true
    · cases b
      · rw [show collapse false (c :: r) = ' ' :: collapse true r from by
          simp [collapse, hsp]]
        refine noCS_cons_of ?_ (ih (noCS_cons h) true)
        rintro ⟨hc, -⟩
        exact absurd hc (by decide)
      · rw [show collapse true (c :: r) = collapse true r from by
          simp [collapse, hsp]]
        exact ih (noCS_cons h) true
    · simp only [Bool.not_eq_true] at hsp
      rw [collapse_cons_not_space hsp]
      refine noCS_cons_of ?_ (ih (noCS_cons h) false)
      rintro ⟨rfl, hh⟩
      have hg := noCS_slash_head h
      rcases r with _ | ⟨d, r'⟩
      · simp [collapse] at hh
      · by_cases hd : isSpaceChar d = true
        · rw [show collapse false (d :: r') = ' ' :: collapse true r' from by
            simp [collapse, hd]] at hh
          rcases hh with hh | hh <;>
            simp only [List.head?, Option.some.injEq] at hh <;>
            exact absurd hh (by decide)
        · simp only [Bool.not_eq_true] at hd
          rw [collapse_cons_not_space hd] at hh
          rcases hh with hh | hh <;> simp only [List.head?, Option.some.injEq] at hh
          · exact hg.1 (by simp [hh])
          · exact hg.2 (by simp [hh])

/-! ### The normalizer fixes the stripped equivalent -/

theorem collapse_false_strippedEquiv (s : List Char) :
    collapse false (strippedEquiv s) = strippedEquiv s := by
  unfold strippedEquiv
  have os : onlySpaces (collapse false (stripComments .norm s)) :=
    onlySpaces_collapse false _
  rw [show collapse false (trim (collapse false (stripComments .norm s)))
      = trim (collapse false (collapse false (stripComments .norm s))) from
    (trim_collapse os).symm]
  rw [collapse_idem]

theorem noCS_strippedEquiv (s : List Char) : noCS (strippedEquiv s) = true :=
  noCS_trim (noCS_collapse (noCS_stripComments .norm s) false)

theorem normalize_strippedEquiv (s : List Char) :
    removeCommentsAndExtraSpaces (strippedEquiv s) = strippedEquiv s := by
  unfold removeCommentsAndExtraSpaces
  rw [normChars_of_noCS (noCS_strippedEquiv s) false, collapse_false_strippedEquiv]
  unfold strippedEquiv
  rw [trim_idem]

/-! ### collapse commutes with the scanning primitives -/

theorem takeWhile_word_collapse (l : List Char) :
    (collapse false l).takeWhile isWordChar = l.takeWhile isWordChar ∧
    (collapse false l).dropWhile isWordChar = collapse false (l.dropWhile isWordChar) := by
  induction l with
  | nil => exact ⟨rfl, rfl⟩
  | cons c r ih =>
    by_cases hsp : isSpaceChar c = true
    · rw [show collapse false (c :: r) = ' ' :: collapse true r from by
        simp [collapse, hsp]]
      have hw : isWordChar c = false := isSpaceChar_not_word hsp
      constructor
      · simp [List.takeWhile, hw, show isWordChar ' ' = false from rfl]
      · simp only [List.dropWhile, hw, if_false, Bool.false_eq_true,
          show isWordChar ' ' = false from rfl]
        rw [show collapse false (c :: r) = ' ' :: collapse true r from by
          simp [collapse, hsp]]
    · simp only [Bool.not_eq_true] at hsp
      rw [collapse_cons_not_space hsp]
      by_cases hw : isWordChar c = true
      · constructor
        · simp [List.takeWhile, hw, ih.1]
        · simp only [List.dropWhile, hw, if_true]
          exact ih.2
      · have hwf : isWordChar c = false := by simpa using hw
        constructor
        · simp [List.takeWhile, hwf]
        · simp only [List.dropWhile, hwf, if_false, Bool.false_eq_true]
          rw [collapse_cons_not_space hsp]

theorem dropWhile_space_collapse (l : List Char) (b : Bool) :
    (collapse b l).dropWhile isSpaceChar = collapse false (l.dropWhile isSpaceChar) := by
  induction l generalizing b with
  | nil => rfl
  | cons c r ih =>
    by_cases hsp : isSpaceChar c = true
    · cases b
      · rw [show collapse false (c :: r) = ' ' :: collapse true r from by
          simp [collapse, hsp]]
        simp only [List.dropWhile, isSpaceChar_spc, if_true, hsp]
        exact ih true
      · rw [show collapse true (c :: r) = collapse true r from by
          simp [collapse, hsp]]
        simp only [List.dropWhile, hsp, if_true]
        exact ih true
    · simp only [Bool.not_eq_true] at hsp
      rw [collapse_cons_not_space hsp]
      simp only [List.dropWhile, hsp, if_false, Bool.false_eq_true]
      rw [collapse_cons_not_space hsp]

theorem takeWhile_space_collapse_nil (l : List Char) :
    ((collapse false l).takeWhile isSpaceChar = [] ↔ l.takeWhile isSpaceChar = []) := by
  cases l with
  | nil => simp [collapse]
  | cons c r =>
    by_cases hsp : isSpaceChar c = true
    · rw [show collapse false (c :: r) = ' ' :: collapse true r from by
        simp [collapse, hsp]]
      simp [List.takeWhile, hsp, isSpaceChar_spc]
    · simp only [Bool.not_eq_true] at hsp
      rw [collapse_cons_not_space hsp]
      simp [List.takeWhile, hsp]

theorem head_dropWhile_space (l : List Char) {c : Char}
    (h : (l.dropWhile isSpaceChar).head? = some c) : isSpaceChar c = false := by
  induction l with
  | nil => cases h
  | cons d r ih =>
    by_cases hd : isSpaceChar d = true
    · simp only [List.dropWhile, hd, if_true] at h
      exact ih h
    · simp only [List.dropWhile, hd, if_false, Bool.false_eq_true] at h
      simp only [List.head?, Option.some.injEq] at h
      subst h
      simpa using hd

theorem head_collapse_false (l : List Char)
    (h : ∀ c, l.head? = some c → isSpaceChar c = false) :
    (collapse false l).head? = l.head? := by
  cases l with
  | nil => rfl
  | cons c r =>
    have hc : isSpaceChar c = false := h c rfl
    rw [collapse_cons_not_space hc]
    rfl

theorem collapse_take_pat (pat : List Char) :
    ∀ l, (∀ c ∈ pat, isSpaceChar c = false) →
      (((collapse false l).take pat.length = pat ↔ l.take pat.length = pat) ∧
      (l.take pat.length = pat →
        (collapse false l).drop pat.length = collapse false (l.drop pat.length))) := by
  induction pat with
  | nil =>
    intro l _
    simp
  | cons p ps ih =>
    intro l hp
    have hpp : isSpaceChar p = false := hp p (List.mem_cons_self p ps)
    have hps : ∀ c ∈ ps, isSpaceChar c = false :=
      fun c hc => hp c (List.mem_cons_of_mem p hc)
    cases l with
    | nil => simp [collapse]
    | cons c r =>
      by_cases hsp : isSpaceChar c = true
      · rw [show collapse false (c :: r) = ' ' :: collapse true r from by
          simp [collapse, hsp]]
        constructor
        · simp only [List.length_cons, List.take_succ_cons, List.cons.injEq]
          constructor
          · rintro ⟨h1, -⟩
            rw [← h1] at hpp
            exact absurd hpp (by decide)
          · rintro ⟨h1, -⟩
            rw [← h1] at hpp
            rw [hsp] at hpp
            cases hpp
        · intro hx
          simp only [List.length_cons, List.take_succ_cons, List.cons.injEq] at hx
          rw [← hx.1] at hpp
          rw [hsp] at hpp
          cases hpp
      · simp only [Bool.not_eq_true] at hsp
        rw [collapse_cons_not_space hsp]
        simp only [List.length_cons, List.take_succ_cons, List.cons.injEq,
          List.drop_succ_cons]
        constructor
        · constructor
          · rintro ⟨h1, h2⟩
            exact ⟨h1, ((ih r hps).1).mp h2⟩
          · rintro ⟨h1, h2⟩
            exact ⟨h1, ((ih r hps).1).mpr h2⟩
        · rintro ⟨-, h2⟩
          exact (ih r hps).2 h2

theorem matchStructAt_collapse (l : List Char) :
    matchStructAt (collapse false l) = matchStructAt l := by
  unfold matchStructAt
  have hp : ∀ c ∈ "struct".toList, isSpaceChar c = false := by decide
  have hlen : ("struct".toList).length = 6 := by decide
  have h1 := (collapse_take_pat "struct".toList l hp).1
  rw [hlen] at h1
  by_cases ht : l.take 6 = "struct".toList
  · rw [if_pos (h1.mpr ht), if_pos ht]
    have h2 := (collapse_take_pat "struct".toList l hp).2
    rw [hlen] at h2
    rw [h2 ht]
    have hsp1 := takeWhile_space_collapse_nil (l.drop 6)
    by_cases hempty : (l.drop 6).takeWhile isSpaceChar = []
    · rw [if_pos (hsp1.mpr hempty), if_pos hempty]
    · rw [if_neg (fun hx => hempty (hsp1.mp hx)), if_neg hempty]
      rw [dropWhile_space_collapse]
      set r1 := (l.drop 6).dropWhile isSpaceChar with hr1
      rw [(takeWhile_word_collapse r1).1, (takeWhile_word_collapse r1).2]
      by_cases hnm : r1.takeWhile isWordChar = []
      · rw [if_pos hnm, if_pos hnm]
      · rw [if_neg hnm, if_neg hnm]
        rw [dropWhile_space_collapse]
        rw [head_collapse_false _ (fun c hc => head_dropWhile_space _ hc)]
  · rw [if_neg (fun hx => ht (h1.mp hx)), if_neg ht]

theorem matchStructAt_space_head {c : Char} (hsp : isSpaceChar c = true)
    (r : List Char) : matchStructAt (c :: r) = none := by
  unfold matchStructAt
  rw [if_neg]
  intro hx
  simp only [List.take_succ_cons, show "struct".toList = 's' :: "truct".toList from rfl,
    List.cons.injEq] at hx
  rw [hx.1] at hsp
  exact absurd hsp (by decide)

theorem structNameOf_collapse (l : List Char) (b : Bool) :
    structNameOf (collapse b l) = structNameOf l := by
  induction l generalizing b with
  | nil => rfl
  | cons c r ih =>
    by_cases hsp : isSpaceChar c = true
    · have hnone : matchStructAt (c :: r) = none := matchStructAt_space_head hsp r
      cases b
      · rw [show collapse false (c :: r) = ' ' :: collapse true r from by
          simp [collapse, hsp]]
        rw [show structNameOf (' ' :: collapse true r) =
          structNameOf (collapse true r) from by
          simp [structNameOf, matchStructAt_space_head (c := ' ') rfl]]
        rw [show structNameOf (c :: r) = structNameOf r from by
          simp [structNameOf, hnone]]
        exact ih true
      · rw [show collapse true (c :: r) = collapse true r from by
          simp [collapse, hsp]]
        rw [show structNameOf (c :: r) = structNameOf r from by
          simp [structNameOf, hnone]]
        exact ih true
    · simp only [Bool.not_eq_true] at hsp
      rw [collapse_cons_not_space hsp]
      have hm : matchStructAt (c :: collapse false r) = matchStructAt (c :: r) := by
        rw [show (c :: collapse false r) = collapse false (c :: r) from
          (collapse_cons_not_space hsp false r).symm]
        exact matchStructAt_collapse (c :: r)
      simp only [structNameOf, hm]
      cases matchStructAt (c :: r)
      · simpa using ih false
      · rfl

/-! ### collapse and the brace-content extraction -/

theorem afterFirstBrace_collapse (l : List Char) (b : Bool) :
    afterFirstBrace (collapse b l) = (afterFirstBrace l).map (collapse false) := by
  induction l generalizing b with
  | nil => rfl
  | cons c r ih =>
    by_cases hsp : isSpaceChar c = true
    · have hne : c ≠ '{' := by
        rintro rfl; exact absurd hsp (by decide)
      cases b
      · rw [show collapse false (c :: r) = ' ' :: collapse true r from by
          simp [collapse, hsp]]
        rw [show afterFirstBrace (' ' :: collapse true r) =
          afterFirstBrace (collapse true r) from by simp [afterFirstBrace]]
        rw [show afterFirstBrace (c :: r) = afterFirstBrace r from by
          simp [afterFirstBrace, hne]]
        exact ih true
      · rw [show collapse true (c :: r) = collapse true r from by
          simp [collapse, hsp]]
        rw [show afterFirstBrace (c :: r) = afterFirstBrace r from by
          simp [afterFirstBrace, hne]]
        exact ih true
    · simp only [Bool.not_eq_true] at hsp
      rw [collapse_cons_not_space hsp]
      by_cases hb : c = '{'
      · subst hb
        simp [afterFirstBrace]
      · simp only [afterFirstBrace, hb, if_false]
        exact ih false

theorem beforeLastClose_collapse (l : List Char) (b : Bool) :
    beforeLastClose (collapse b l) = (beforeLastClose l).map (collapse b) := by
  induction l generalizing b with
  | nil => rfl
  | cons c r ih =>
    by_cases hsp : isSpaceChar c = true
    · have hne : c ≠ '}' := by
        rintro rfl; exact absurd hsp (by decide)
      cases b
      · rw [show collapse false (c :: r) = ' ' :: collapse true r from by
          simp [collapse, hsp]]
        simp only [beforeLastClose, ih true]
        cases beforeLastClose r with
        | none => simp [hne]
        | some q =>
          simp only [Option.map_some, Option.map]
          rw [show collapse false (c :: q) = ' ' :: collapse true q from by
            simp [collapse, hsp]]
      · rw [show collapse true (c :: r) = collapse true r from by
          simp [collapse, hsp]]
        simp only [beforeLastClose, ih true]
        cases beforeLastClose r with
        | none => simp [hne]
        | some q =>
          simp only [Option.map_some, Option.map]
          rw [show collapse true (c :: q) = collapse true q from by
            simp [collapse, hsp]]
    · simp only [Bool.not_eq_true] at hsp
      rw [collapse_cons_not_space hsp]
      simp only [beforeLastClose, ih false]
      cases beforeLastClose r with
      | none =>
        by_cases hb : c = '}'
        · subst hb
          simp only [if_pos rfl, Option.map_some, Option.map]
          cases b <;> rfl
        · simp [hb]
      | some q =>
        simp only [Option.map_some, Option.map]
        rw [collapse_cons_not_space hsp]

theorem contentOf_collapse (l : List Char) (b : Bool) :
    contentOf (collapse b l) = (contentOf l).map (collapse false) := by
  unfold contentOf
  rw [afterFirstBrace_collapse l b]
  cases afterFirstBrace l with
  | none => rfl
  | some r =>
    simp only [Option.map_some]
    exact beforeLastClose_collapse r false

theorem mem_afterFirstBrace {x : Char} {l r : List Char}
    (h : afterFirstBrace l = some r) (hx : x ∈ r) : x ∈ l := by
  induction l with
  | nil => cases h
  | cons c t ih =>
    simp only [afterFirstBrace] at h
    split at h
    · cases h
      exact List.mem_cons_of_mem c hx
    · exact List.mem_cons_of_mem c (ih h)

theorem mem_beforeLastClose {x : Char} {l q : List Char}
    (h : beforeLastClose l = some q) (hx : x ∈ q) : x ∈ l := by
  induction l generalizing q with
  | nil => cases h
  | cons c t ih =>
    simp only [beforeLastClose] at h
    cases hb : beforeLastClose t with
    | none =>
      simp only [hb] at h
      by_cases hc : c = '}'
      · rw [if_pos hc] at h
        injection h with h
        subst h
        cases hx
      · rw [if_neg hc] at h
        cases h
    | some q' =>
      simp only [hb, Option.some.injEq] at h
      subst h
      rcases List.mem_cons.mp hx with h1 | h1
      · exact h1 ▸ List.mem_cons_self c t
      · exact List.mem_cons_of_mem c (ih hb h1)

theorem onlySpaces_contentOf {l content : List Char} (os : onlySpaces l)
    (h : contentOf l = some content) : onlySpaces content := by
  unfold contentOf at h
  cases ha : afterFirstBrace l with
  | none => rw [ha] at h; cases h
  | some r =>
    rw [ha] at h
    intro c hc hcs
    exact os c (mem_afterFirstBrace ha (mem_beforeLastClose h hc)) hcs

/-! ### collapse and the field splitter -/

theorem splitFieldsAux_cons (c : Char) (q cur : List Char) (lvl : Int) :
    splitFieldsAux (c :: q) cur lvl =
      (let lvl' : Int := if c = '{' then lvl + 1 else if c = '}' then lvl - 1 else lvl
      if c = ';' ∧ lvl' = 0 then
        (if cur = [] then splitFieldsAux q [] lvl'
         else trim cur :: splitFieldsAux q [] lvl')
      else splitFieldsAux q (cur ++ [c]) lvl') := by
  simp only [splitFieldsAux]
  by_cases h1 : c = ';' <;>
    by_cases h2 : (if c = '{' then lvl + 1 else if c = '}' then lvl - 1 else lvl) = 0 <;>
    simp [h1, h2]

theorem onlySpaces_append {x y : List Char} (hx : onlySpaces x) (hy : onlySpaces y) :
    onlySpaces (x ++ y) := by
  intro c hc hcs
  rcases List.mem_append.mp hc with h | h
  · exact hx c h hcs
  · exact hy c h hcs

theorem splitFieldsAux_cons_other {c : Char} (hne1 : c ≠ '{') (hne2 : c ≠ '}')
    (hne3 : c ≠ ';') (q cur : List Char) (lvl : Int) :
    splitFieldsAux (c :: q) cur lvl = splitFieldsAux q (cur ++ [c]) lvl := by
  simp [splitFieldsAux, hne1, hne2, hne3]

theorem splitFieldsAux_cons_semi (q cur : List Char) (lvl : Int) (h : lvl = 0) :
    splitFieldsAux (';' :: q) cur lvl =
      (if cur = [] then splitFieldsAux q [] lvl
       else trim cur :: splitFieldsAux q [] lvl) := by
  simp [splitFieldsAux, h]

theorem splitFieldsAux_cons_semi_ne (q cur : List Char) (lvl : Int) (h : ¬lvl = 0) :
    splitFieldsAux (';' :: q) cur lvl = splitFieldsAux q (cur ++ [';']) lvl := by
  simp [splitFieldsAux, h]

theorem splitFieldsAux_cons_open (q cur : List Char) (lvl : Int) :
    splitFieldsAux ('{' :: q) cur lvl = splitFieldsAux q (cur ++ ['{']) (lvl + 1) := by
  simp [splitFieldsAux]

theorem splitFieldsAux_cons_close (q cur : List Char) (lvl : Int) :
    splitFieldsAux ('}' :: q) cur lvl = splitFieldsAux q (cur ++ ['}']) (lvl - 1) := by
  simp [splitFieldsAux]

theorem collapse_append_nonspace {c : Char} (h : isSpaceChar c = false)
    (cur : List Char) (b : Bool) :
    collapse b (cur ++ [c]) = collapse b cur ++ [c] := by
  rw [collapse_append]
  congr 1
  rw [collapse_cons_not_space h]
  rfl

theorem flagAfter_append_singleton (b : Bool) (cur : List Char) (c : Char) :
    flagAfter b (cur ++ [c]) = isSpaceChar c := by
  rw [flagAfter_append]
  rfl

theorem splitFieldsAux_collapse :
    ∀ (q cur : List Char), onlySpaces q → onlySpaces cur → ∀ lvl : Int,
    splitFieldsAux (collapse (flagAfter false cur) q) (collapse false cur) lvl
      = (splitFieldsAux q cur lvl).map (collapse false) := by
  intro q
  induction q with
  | nil =>
    intro cur _ osc lvl
    by_cases hc : cur = []
    · subst hc
      rfl
    · have hcc : collapse false cur ≠ [] := fun hx => hc (collapse_nil_iff_false.mp hx)
      simp only [splitFieldsAux, show collapse (flagAfter false cur) [] = [] from by
        cases flagAfter false cur <;> rfl]
      rw [if_neg (by simpa using hcc), if_neg (by simpa using hc)]
      simp only [List.map]
      rw [trim_collapse osc]
  | cons c q' ih =>
    intro cur osq osc lvl
    have hosq' : onlySpaces q' := onlySpaces_cons osq
    by_cases hsp : isSpaceChar c = true
    · have hc : c = ' ' := osq c (List.mem_cons_self c q') hsp
      subst hc
      have hosc' : onlySpaces (cur ++ [' ']) :=
        onlySpaces_append osc (by
          intro d hd _
          simpa using List.mem_singleton.mp hd)
      rw [splitFieldsAux_cons_other (by decide) (by decide) (by decide)]
      cases hb : flagAfter false cur with
      | true =>
        rw [collapse_cons_space_true]
        have h1 : collapse false (cur ++ [' ']) = collapse false cur := by
          rw [collapse_append, hb]
          simp [collapse, isSpaceChar_spc]
        have h2 : flagAfter false (cur ++ [' ']) = true := by
          rw [flagAfter_append_singleton]
          exact isSpaceChar_spc
        have hx := ih (cur ++ [' ']) hosq' hosc' lvl
        rw [h1, h2] at hx
        exact hx
      | false =>
        rw [collapse_cons_space_false]
        rw [splitFieldsAux_cons_other (by decide) (by decide) (by decide)]
        have h1 : collapse false (cur ++ [' ']) = collapse false cur ++ [' '] := by
          rw [collapse_append, hb]
          rfl
        have h2 : flagAfter false (cur ++ [' ']) = true := by
          rw [flagAfter_append_singleton]
          exact isSpaceChar_spc
        have hx := ih (cur ++ [' ']) hosq' hosc' lvl
        rw [h1, h2] at hx
        exact hx
    · simp only [Bool.not_eq_true] at hsp
      rw [collapse_cons_not_space hsp]
      have hosc2 : onlySpaces (cur ++ [c]) :=
        onlySpaces_append osc (by
          intro d hd hds
          rcases List.mem_singleton.mp hd with rfl
          rw [hsp] at hds
          cases hds)
      have hIH := ih (cur ++ [c]) hosq' hosc2
      have h1 : collapse false (cur ++ [c]) = collapse false cur ++ [c] :=
        collapse_append_nonspace hsp cur false
      have h2 : flagAfter false (cur ++ [c]) = false := by
        rw [flagAfter_append_singleton, hsp]
      by_cases hc : c = ';'
      · subst hc
        by_cases hlvl : lvl = 0
        · rw [splitFieldsAux_cons_semi _ _ _ hlvl, splitFieldsAux_cons_semi _ _ _ hlvl]
          have hIH0 : splitFieldsAux (collapse false q') [] lvl
              = (splitFieldsAux q' [] lvl).map (collapse false) :=
            ih [] hosq' (fun d hd => absurd hd (List.not_mem_nil d)) lvl
          by_cases hcur : cur = []
          · subst hcur
            rw [if_pos rfl, if_pos (show collapse false ([] : List Char) = [] from rfl)]
            exact hIH0
          · have hccur : collapse false cur ≠ [] :=
              fun hx => hcur (collapse_nil_iff_false.mp hx)
            rw [if_neg hccur, if_neg hcur, List.map_cons, trim_collapse osc, hIH0]
        · rw [splitFieldsAux_cons_semi_ne _ _ _ hlvl, splitFieldsAux_cons_semi_ne _ _ _ hlvl]
          have hx := hIH lvl
          rw [h1, h2] at hx
          exact hx
      · by_cases hopen : c = '{'
        · subst hopen
          rw [splitFieldsAux_cons_open, splitFieldsAux_cons_open]
          have hx := hIH (lvl + 1)
          rw [h1, h2] at hx
          exact hx
        · by_cases hclose : c = '}'
          · subst hclose
            rw [splitFieldsAux_cons_close, splitFieldsAux_cons_close]
            have hx := hIH (lvl - 1)
            rw [h1, h2] at hx
            exact hx
          · rw [splitFieldsAux_cons_other hopen hclose hc,
              splitFieldsAux_cons_other hopen hclose hc]
            have hx := hIH lvl
            rw [h1, h2] at hx
            exact hx

theorem splitFields_collapse {content : List Char} (os : onlySpaces content) :
    splitFields (collapse false content) = (splitFields content).map (collapse false) := by
  unfold splitFields
  exact splitFieldsAux_collapse content [] os
    (fun d hd => absurd hd (List.not_mem_nil d)) 0

/-! ### The field loop only sees collapsed lines -/

theorem parseFields_map_collapse (lines : List (List Char)) (byte bit : Nat) :
    parseFields (lines.map (collapse false)) byte bit = parseFields lines byte bit := by
  induction lines generalizing byte bit with
  | nil => rfl
  | cons line rest ih =>
    simp only [List.map_cons]
    by_cases hl : line = []
    · subst hl
      simp only [parseFields]
      exact ih byte bit
    · have hcl : collapse false line ≠ [] := fun hx => hl (collapse_nil_iff_false.mp hx)
      simp only [parseFields]
      rw [if_neg hcl, if_neg hl]
      have hcls : classifyLine (collapse false line) = classifyLine line := by
        unfold classifyLine simplifyLine
        rw [collapse_idem]
      rw [hcls]
      cases hcf : classifyLine line with
      | none =>
        dsimp only
        exact ih byte bit
      | some f =>
        dsimp only
        cases hgt : getTypeSize f.type with
        | error e => rfl
        | ok sz =>
          dsimp only
          rw [ih (placeField f sz byte bit).1.1 (placeField f sz byte bit).1.2]

/-- Claim C3 (amended): parsing a text and parsing its comment-free
equivalent — line comments replaced by a separator, block comments removed
with no separator, whitespace collapsed — produce identical results. -/
theorem parseStruct_strippedEquiv (s : List Char) :
    parseStruct (strippedEquiv s) = parseStruct s := by
  have key : removeCommentsAndExtraSpaces (strippedEquiv s)
      = collapse false (removeCommentsAndExtraSpaces s) := by
    rw [normalize_strippedEquiv]
    unfold strippedEquiv removeCommentsAndExtraSpaces
    rw [← collapse_normChars .norm false s]
    rw [trim_collapse (onlySpaces_normChars .norm false s)]
  unfold parseStruct
  rw [key]
  dsimp only
  have osp : onlySpaces (removeCommentsAndExtraSpaces s) :=
    onlySpaces_trim (onlySpaces_normChars .norm false s)
  rw [structNameOf_collapse (removeCommentsAndExtraSpaces s) false,
    contentOf_collapse (removeCommentsAndExtraSpaces s) false]
  cases hc : contentOf (removeCommentsAndExtraSpaces s) with
  | none => rfl
  | some content =>
    dsimp only [Option.map]
    have osc : onlySpaces content := onlySpaces_contentOf osp hc
    rw [splitFields_collapse osc, parseFields_map_collapse]

/-! ### Registry and layout-engine invariants -/

set_option maxHeartbeats 1000000 in
theorem typeSizes_bounds {t : List Char} {n : Nat} (h : typeSizes t = some n) :
    1 ≤ n ∧ n ≤ 8 := by
  unfold typeSizes at h
  split_ifs at h
  all_goals first
    | (injection h with h; omega)
    | (cases h)

theorem getTypeSize_ok_iff {t : List Char} {n : Nat} :
    getTypeSize t = .ok n ↔ typeSizes t = some n := by
  unfold getTypeSize
  cases typeSizes t <;> simp

theorem placeField_plain {f : Field} (h : f.isBitField = false) (sz byte bit : Nat) :
    placeField f sz byte bit =
      ((byte + sz, 0), ⟨f.type, f.name, f.bitWidth, byte, 0, sz, false, f.isAnonymous⟩) := by
  unfold placeField
  rw [h]
  rfl

theorem placeField_bit {f : Field} (h : f.isBitField = true) (sz byte bit : Nat) :
    placeField f sz byte bit =
      (let byte1 := if bit + f.bitWidth > sz * 8 then byte + sz else byte
       let bit1 := if bit + f.bitWidth > sz * 8 then 0 else bit
       let fi : FieldInfo := ⟨f.type, f.name, f.bitWidth, byte1, bit1, sz, true, f.isAnonymous⟩
       let bit2 := bit1 + f.bitWidth
       if bit2 ≥ sz * 8 then ((byte1 + sz, 0), fi) else ((byte1, bit2), fi)) := by
  unfold placeField
  rw [h]
  rfl

theorem placeField_bit_ov_full {f : Field} (h : f.isBitField = true) {sz byte bit : Nat}
    (hov : bit + f.bitWidth > sz * 8) (hfull : 0 + f.bitWidth ≥ sz * 8) :
    placeField f sz byte bit =
      ((byte + sz + sz, 0),
        ⟨f.type, f.name, f.bitWidth, byte + sz, 0, sz, true, f.isAnonymous⟩) := by
  rw [placeField_bit h]
  dsimp only
  simp only [if_pos hov]
  rw [if_pos hfull]

theorem placeField_bit_ov_notfull {f : Field} (h : f.isBitField = true) {sz byte bit : Nat}
    (hov : bit + f.bitWidth > sz * 8) (hfull : ¬0 + f.bitWidth ≥ sz * 8) :
    placeField f sz byte bit =
      ((byte + sz, 0 + f.bitWidth),
        ⟨f.type, f.name, f.bitWidth, byte + sz, 0, sz, true, f.isAnonymous⟩) := by
  rw [placeField_bit h]
  dsimp only
  simp only [if_pos hov]
  rw [if_neg hfull]

theorem placeField_bit_fit_full {f : Field} (h : f.isBitField = true) {sz byte bit : Nat}
    (hov : ¬bit + f.bitWidth > sz * 8) (hfull : bit + f.bitWidth ≥ sz * 8) :
    placeField f sz byte bit =
      ((byte + sz, 0),
        ⟨f.type, f.name, f.bitWidth, byte, bit, sz, true, f.isAnonymous⟩) := by
  rw [placeField_bit h]
  dsimp only
  simp only [if_neg hov]
  rw [if_pos hfull]

theorem placeField_bit_fit_notfull {f : Field} (h : f.isBitField = true) {sz byte bit : Nat}
    (hov : ¬bit + f.bitWidth > sz * 8) (hfull : ¬bit + f.bitWidth ≥ sz * 8) :
    placeField f sz byte bit =
      ((byte, bit + f.bitWidth),
        ⟨f.type, f.name, f.bitWidth, byte, bit, sz, true, f.isAnonymous⟩) := by
  rw [placeField_bit h]
  dsimp only
  simp only [if_neg hov]
  rw [if_neg hfull]

theorem placeField_spec (f : Field) (sz byte bit : Nat) (hbit : bit < 64)
    (hsz8 : sz ≤ 8) :
    (placeField f sz byte bit).2.type = f.type ∧
    (placeField f sz byte bit).2.name = f.name ∧
    (placeField f sz byte bit).2.size = sz ∧
    (placeField f sz byte bit).2.bitWidth = f.bitWidth ∧
    (placeField f sz byte bit).2.isBitField = f.isBitField ∧
    (placeField f sz byte bit).2.isAnonymous = f.isAnonymous ∧
    byte ≤ (placeField f sz byte bit).2.byteOffset ∧
    (placeField f sz byte bit).2.byteOffset ≤ (placeField f sz byte bit).1.1 ∧
    byte ≤ (placeField f sz byte bit).1.1 ∧
    (placeField f sz byte bit).2.bitOffset < 64 ∧
    (placeField f sz byte bit).1.2 < 64 ∧
    ((placeField f sz byte bit).2.bitOffset = 0 ∨
      (placeField f sz byte bit).2.bitOffset + (placeField f sz byte bit).2.bitWidth
        ≤ sz * 8) := by
  cases hbf : f.isBitField with
  | false =>
    rw [placeField_plain hbf]
    exact ⟨rfl, rfl, rfl, rfl, rfl, rfl, Nat.le_refl _, Nat.le_add_right _ _,
      Nat.le_add_right _ _, show (0 : Nat) < 64 by omega, show (0 : Nat) < 64 by omega,
      Or.inl rfl⟩
  | true =>
    by_cases hov : bit + f.bitWidth > sz * 8
    · by_cases hfull : 0 + f.bitWidth ≥ sz * 8
      · rw [placeField_bit_ov_full hbf hov hfull]
        exact ⟨rfl, rfl, rfl, rfl, rfl, rfl, Nat.le_add_right _ _, Nat.le_add_right _ _,
          show byte ≤ byte + sz + sz by omega, show (0 : Nat) < 64 by omega,
          show (0 : Nat) < 64 by omega, Or.inl rfl⟩
      · rw [placeField_bit_ov_notfull hbf hov hfull]
        exact ⟨rfl, rfl, rfl, rfl, rfl, rfl, Nat.le_add_right _ _, Nat.le_refl _,
          Nat.le_add_right _ _, show (0 : Nat) < 64 by omega,
          show 0 + f.bitWidth < 64 by omega, Or.inl rfl⟩
    · by_cases hfull : bit + f.bitWidth ≥ sz * 8
      · rw [placeField_bit_fit_full hbf hov hfull]
        exact ⟨rfl, rfl, rfl, rfl, rfl, rfl, Nat.le_refl _, Nat.le_add_right _ _,
          Nat.le_add_right _ _, hbit, show (0 : Nat) < 64 by omega,
          Or.inr (show bit + f.bitWidth ≤ sz * 8 by omega)⟩
      · rw [placeField_bit_fit_notfull hbf hov hfull]
        exact ⟨rfl, rfl, rfl, rfl, rfl, rfl, Nat.le_refl _, Nat.le_refl _, Nat.le_refl _,
          hbit, show bit + f.bitWidth < 64 by omega,
          Or.inr (show bit + f.bitWidth ≤ sz * 8 by omega)⟩

theorem parseFields_invariant :
    ∀ (lines : List (List Char)) (byte bit : Nat) (fis : List FieldInfo) (bE tE : Nat),
      parseFields lines byte bit = .ok (fis, bE, tE) → bit < 64 →
      ((∀ fi ∈ fis,
        byte ≤ fi.byteOffset ∧
        typeSizes fi.type = some fi.size ∧
        fi.bitOffset < 64 ∧
        (fi.bitOffset = 0 ∨ fi.bitOffset + fi.bitWidth ≤ fi.size * 8) ∧
        fi.isAnonymous = false) ∧
      List.Pairwise (fun a b => a.byteOffset ≤ b.byteOffset) fis) := by
  intro lines
  induction lines with
  | nil =>
    intro byte bit fis bE tE h _
    simp only [parseFields] at h
    injection h with h
    injection h with h1 h2
    subst h1
    exact ⟨fun fi hfi => absurd hfi (List.not_mem_nil fi), List.Pairwise.nil⟩
  | cons line rest ih =>
    intro byte bit fis bE tE h hbit
    simp only [parseFields] at h
    by_cases hl : line = []
    · rw [if_pos hl] at h
      exact ih byte bit fis bE tE h hbit
    · rw [if_neg hl] at h
      cases hcf : classifyLine line with
      | none =>
        rw [hcf] at h
        exact ih byte bit fis bE tE h hbit
      | some f =>
        rw [hcf] at h
        dsimp only at h
        cases hgt : getTypeSize f.type with
        | error e =>
          rw [hgt] at h
          cases h
        | ok sz =>
          rw [hgt] at h
          dsimp only at h
          have hts : typeSizes f.type = some sz := getTypeSize_ok_iff.mp hgt
          have hsz8 : sz ≤ 8 := (typeSizes_bounds hts).2
          have hps := placeField_spec f sz byte bit hbit hsz8
          cases hrest : parseFields rest (placeField f sz byte bit).1.1
              (placeField f sz byte bit).1.2 with
          | error e => rw [hrest] at h; cases h
          | ok trip =>
            rcases trip with ⟨fis', bE', tE'⟩
            rw [hrest] at h
            injection h with h
            injection h with h1 h2
            injection h2 with h2a h2b
            have hrec := ih _ _ fis' bE' tE' hrest hps.2.2.2.2.2.2.2.2.2.2.1
            subst h1
            cases han : f.isAnonymous with
            | true =>
              rw [if_pos rfl]
              constructor
              · intro fi hfi
                have hrf := hrec.1 fi hfi
                exact ⟨Nat.le_trans hps.2.2.2.2.2.2.2.2.1 hrf.1, hrf.2⟩
              · exact hrec.2
            | false =>
              rw [if_neg (show ¬false = true from Bool.false_ne_true)]
              constructor
              · intro fi hfi
                rcases List.mem_cons.mp hfi with rfl | hfi
                · refine ⟨hps.2.2.2.2.2.2.1, ?_, hps.2.2.2.2.2.2.2.2.2.1, ?_, ?_⟩
                  · rw [hps.1, hps.2.2.1]
                    exact hts
                  · rw [hps.2.2.1]
                    exact hps.2.2.2.2.2.2.2.2.2.2.2
                  · rw [hps.2.2.2.2.2.1]
                    exact han
                · have hrf := hrec.1 fi hfi
                  exact ⟨Nat.le_trans hps.2.2.2.2.2.2.1
                    (Nat.le_trans hps.2.2.2.2.2.2.2.1 hrf.1), hrf.2⟩
              · refine List.Pairwise.cons ?_ hrec.2
                intro g hg
                exact Nat.le_trans hps.2.2.2.2.2.2.2.1 ((hrec.1 g hg).1)

/-! ### parseStruct inversion and corollaries -/

theorem parseStruct_ok_elim {s : List Char} {info : StructInfo}
    (h : parseStruct s = .ok info) :
    ∃ content fis byte bit,
      contentOf (removeCommentsAndExtraSpaces s) = some content ∧
      parseFields (splitFields content) 0 0 = .ok (fis, byte, bit) ∧
      info = ⟨(structNameOf (removeCommentsAndExtraSpaces s)).getD [], fis,
        byte + (if bit > 0 then 1 else 0)⟩ := by
  unfold parseStruct at h
  dsimp only at h
  cases hc : contentOf (removeCommentsAndExtraSpaces s) with
  | none =>
    rw [hc] at h
    cases h
  | some content =>
    rw [hc] at h
    dsimp only at h
    cases hp : parseFields (splitFields content) 0 0 with
    | error e =>
      rw [hp] at h
      cases h
    | ok trip =>
      rcases trip with ⟨fis, byte, bit⟩
      rw [hp] at h
      dsimp only at h
      injection h with h
      exact ⟨content, fis, byte, bit, rfl, hp, h.symm⟩

theorem parseStruct_fields_invariant {s : List Char} {info : StructInfo}
    (h : parseStruct s = .ok info) :
    (∀ fi ∈ info.fields,
      typeSizes fi.type = some fi.size ∧
      fi.bitOffset < 64 ∧
      (fi.bitOffset = 0 ∨ fi.bitOffset + fi.bitWidth ≤ fi.size * 8) ∧
      fi.isAnonymous = false) ∧
    List.Pairwise (fun a b => a.byteOffset ≤ b.byteOffset) info.fields := by
  rcases parseStruct_ok_elim h with ⟨content, fis, byte, bit, _, hp, hinfo⟩
  have hinv := parseFields_invariant (splitFields content) 0 0 fis byte bit hp
    (by omega)
  subst hinfo
  exact ⟨fun fi hfi => (hinv.1 fi hfi).2, hinv.2⟩

theorem parseFields_all_plain :
    ∀ (lines : List (List Char)) (byte : Nat) (fis : List FieldInfo) (bE tE : Nat),
      parseFields lines byte 0 = .ok (fis, bE, tE) →
      (∀ line ∈ lines, ∀ f, classifyLine line = some f → f.isBitField = false) →
      tE = 0 ∧ bE = byte + sumTypeSizes lines := by
  intro lines
  induction lines with
  | nil =>
    intro byte fis bE tE h _
    simp only [parseFields] at h
    injection h with h
    injection h with h1 h2
    injection h2 with h2a h2b
    exact ⟨h2b.symm, by simp [sumTypeSizes, h2a.symm]⟩
  | cons line rest ih =>
    intro byte fis bE tE h hplain
    simp only [parseFields] at h
    by_cases hl : line = []
    · rw [if_pos hl] at h
      have hx := ih byte fis bE tE h
        (fun l hl2 => hplain l (List.mem_cons_of_mem line hl2))
      refine ⟨hx.1, ?_⟩
      rw [hx.2]
      have hcl : classifyLine line = none := by rw [hl]; rfl
      simp [sumTypeSizes, hcl]
    · rw [if_neg hl] at h
      cases hcf : classifyLine line with
      | none =>
        rw [hcf] at h
        dsimp only at h
        have hx := ih byte fis bE tE h
          (fun l hl2 => hplain l (List.mem_cons_of_mem line hl2))
        refine ⟨hx.1, ?_⟩
        rw [hx.2]
        simp [sumTypeSizes, hcf]
      | some f =>
        rw [hcf] at h
        dsimp only at h
        have hbf : f.isBitField = false :=
          hplain line (List.mem_cons_self line rest) f hcf
        cases hgt : getTypeSize f.type with
        | error e =>
          rw [hgt] at h
          cases h
        | ok sz =>
          rw [hgt] at h
          dsimp only at h
          rw [placeField_plain hbf] at h
          dsimp only at h
          cases hrest : parseFields rest (byte + sz) 0 with
          | error e =>
            rw [hrest] at h
            cases h
          | ok trip =>
            rcases trip with ⟨fis', bE', tE'⟩
            rw [hrest] at h
            dsimp only at h
            injection h with h
            injection h with h1 h2
            injection h2 with h2a h2b
            have hx := ih (byte + sz) fis' bE' tE' hrest
              (fun l hl2 => hplain l (List.mem_cons_of_mem line hl2))
            have hts : typeSizes f.type = some sz := getTypeSize_ok_iff.mp hgt
            refine ⟨h2b ▸ hx.1, ?_⟩
            rw [← h2a, hx.2]
            simp only [sumTypeSizes, List.foldr, hcf, hts]
            simp [sumTypeSizes]
            omega

theorem storeLE_len : ∀ (n : Nat) (buf : List Nat) (off v : Nat),
    (storeLE buf off n v).length = buf.length := by
  intro n
  induction n with
  | zero => intro buf off v; rfl
  | succ n ih =>
    intro buf off v
    show (storeLE (buf.set off (v % 256)) (off + 1) n (v / 256)).length = buf.length
    rw [ih, List.length_set]

theorem storeLE_frame : ∀ (n : Nat) (buf : List Nat) (off v j : Nat),
    j < off ∨ off + n ≤ j →
    (storeLE buf off n v).getD j 0 = buf.getD j 0 := by
  intro n
  induction n with
  | zero => intro buf off v j _; rfl
  | succ n ih =>
    intro buf off v j hj
    show (storeLE (buf.set off (v % 256)) (off + 1) n (v / 256)).getD j 0 = buf.getD j 0
    rw [ih _ _ _ j (by omega)]
    have hne : off ≠ j := by omega
    simp [List.getD_eq_getElem?_getD, List.getElem?_set_ne hne]

theorem loadLE_storeLE : ∀ (n : Nat) (buf : List Nat) (off v : Nat),
    off + n ≤ buf.length →
    loadLE (storeLE buf off n v) off n = v % 2 ^ (8 * n) := by
  intro n
  induction n with
  | zero => intro buf off v _; simp [loadLE, Nat.mod_one]
  | succ n ih =>
    intro buf off v hlen
    show loadLE (storeLE (buf.set off (v % 256)) (off + 1) n (v / 256)) off (n + 1)
      = v % 2 ^ (8 * (n + 1))
    rw [show loadLE (storeLE (buf.set off (v % 256)) (off + 1) n (v / 256)) off (n + 1)
        = (storeLE (buf.set off (v % 256)) (off + 1) n (v / 256)).getD off 0
          + 256 * loadLE (storeLE (buf.set off (v % 256)) (off + 1) n (v / 256)) (off + 1) n
      from rfl]
    rw [storeLE_frame n _ _ _ off (Or.inl (by omega))]
    rw [ih _ _ _ (by rw [List.length_set]; omega)]
    have hoff : off < buf.length := by omega
    have h1 : (buf.set off (v % 256)).getD off 0 = v % 256 := by
      simp [List.getD_eq_getElem?_getD, List.getElem?_set_eq hoff]
    rw [h1]
    have h2 : (2 : Nat) ^ (8 * (n + 1)) = 256 * 2 ^ (8 * n) := by
      rw [show 8 * (n + 1) = 8 + 8 * n by ring, pow_add]
      norm_num
    rw [h2, Nat.mod_mul]

/-! ### Bit-level behaviour of the write masks -/

theorem mask_mod64 {w : Nat} (hw : w ≤ 64) : (2 ^ w - 1) % 2 ^ 64 = 2 ^ w - 1 := by
  have h1 : (2 : Nat) ^ w ≤ 2 ^ 64 := Nat.pow_le_pow_right (by norm_num) hw
  have h2 : (0 : Nat) < 2 ^ w := by positivity
  exact Nat.mod_eq_of_lt (by omega)

theorem not64_testBit (y k : Nat) :
    (not64 y).testBit k = (y.testBit k != decide (k < 64)) := by
  unfold not64
  rw [Nat.testBit_xor, Nat.testBit_two_pow_sub_one]

theorem write_read_mask {w bo s : Nat} (x cur : Nat) (hfit : bo + w ≤ 8 * s)
    (hs : 8 * s ≤ 64) :
    ((((cur &&& not64 ((((2 ^ w - 1) % 2 ^ 64) <<< bo) % 2 ^ 64)) |||
        ((((x % 2 ^ 64) &&& ((2 ^ w - 1) % 2 ^ 64)) <<< bo) % 2 ^ 64)) % 2 ^ (8 * s))
        >>> bo) &&& ((2 ^ w - 1) % 2 ^ 64)
      = x % 2 ^ w := by
  have hw64 : w ≤ 64 := by omega
  rw [mask_mod64 hw64]
  have hxm : (x % 2 ^ 64) &&& (2 ^ w - 1) = x % 2 ^ w := by
    rw [Nat.and_pow_two_sub_one_eq_mod, Nat.mod_mod_of_dvd]
    exact pow_dvd_pow 2 hw64
  rw [hxm]
  apply Nat.eq_of_testBit_eq
  intro j
  by_cases hj : j < w
  · have h1 : bo + j < 8 * s := by omega
    have h2 : bo + j < 64 := by omega
    simp only [Nat.testBit_and, Nat.testBit_shiftRight, Nat.testBit_mod_two_pow,
      Nat.testBit_or, Nat.testBit_shiftLeft, not64_testBit,
      Nat.testBit_two_pow_sub_one, Nat.add_sub_cancel_left]
    simp [h1, h2, hj]
  · simp only [Nat.testBit_and, Nat.testBit_two_pow_sub_one]
    rw [eq_comm, Nat.testBit_mod_two_pow]
    simp [hj]

theorem write_frame_mask {w bo s : Nat} (x cur : Nat) (k : Nat) (hk : k < 8 * s)
    (hs : 8 * s ≤ 64) (hout : k < bo ∨ bo + w ≤ k) :
    (((cur &&& not64 ((((2 ^ w - 1) % 2 ^ 64) <<< bo) % 2 ^ 64)) |||
        ((((x % 2 ^ 64) &&& ((2 ^ w - 1) % 2 ^ 64)) <<< bo) % 2 ^ 64)) % 2 ^ (8 * s)).testBit k
      = cur.testBit k := by
  have hk64 : k < 64 := by omega
  simp only [Nat.testBit_mod_two_pow, Nat.testBit_or, Nat.testBit_and,
    not64_testBit, Nat.testBit_shiftLeft, Nat.testBit_two_pow_sub_one]
  rcases hout with hlt | hge
  · have hnb : ¬ (k ≥ bo) := by omega
    simp [hk, hk64, hnb]
  · have hb : k ≥ bo := by omega
    have hnw : ¬ (k - bo < w) := by omega
    simp [hk, hk64, hb, hnw]


/-! ### Unfolding the accessors at a found field -/

theorem struct_write_bit_eq {s fname : List Char} {info : StructInfo} {f : FieldInfo}
    (hp : parseStruct s = .ok info)
    (hf : info.fields.find? (fun fi => fi.name = fname) = some f)
    (hbit : f.isBitField = true) (x : Nat) (buf : List Nat) :
    struct_write s fname x buf =
      .ok (storeLE buf f.byteOffset f.size
        ((loadLE buf f.byteOffset f.size &&&
            not64 ((((2 ^ f.bitWidth - 1) % 2 ^ 64) <<< f.bitOffset) % 2 ^ 64)) |||
          ((((x % 2 ^ 64) &&& ((2 ^ f.bitWidth - 1) % 2 ^ 64)) <<< f.bitOffset) % 2 ^ 64))) := by
  unfold struct_write
  rw [hp]
  dsimp only
  rw [hf]
  dsimp only
  rw [hbit]
  rfl

theorem struct_read_bit_eq {s fname : List Char} {info : StructInfo} {f : FieldInfo}
    (hp : parseStruct s = .ok info)
    (hf : info.fields.find? (fun fi => fi.name = fname) = some f)
    (hbit : f.isBitField = true) (buf : List Nat) :
    struct_read s fname buf =
      .ok ((loadLE buf f.byteOffset f.size >>> f.bitOffset) &&&
        ((2 ^ f.bitWidth - 1) % 2 ^ 64)) := by
  unfold struct_read
  rw [hp]
  dsimp only
  rw [hf]
  dsimp only
  rw [hbit]
  rfl

theorem struct_write_plain_eq {s fname : List Char} {info : StructInfo} {f : FieldInfo}
    (hp : parseStruct s = .ok info)
    (hf : info.fields.find? (fun fi => fi.name = fname) = some f)
    (hbit : f.isBitField = false) (x : Nat) (buf : List Nat) :
    struct_write s fname x buf = .ok (storeLE buf f.byteOffset f.size x) := by
  unfold struct_write
  rw [hp]
  dsimp only
  rw [hf]
  dsimp only
  rw [hbit]
  rfl

/-! ### The claims -/

/-- Claim C1 (amended): writing then reading a bit-field of a parsed layout
returns the value reduced modulo `2 ^ bitWidth`, for every value, provided
the bit-field fits entirely inside its storage unit. -/
theorem bitfield_roundtrip_mod_width {s fname : List Char} {info : StructInfo}
    {f : FieldInfo} {x : Nat} {buf : List Nat}
    (hp : parseStruct s = .ok info)
    (hf : info.fields.find? (fun fi => fi.name = fname) = some f)
    (hbit : f.isBitField = true)
    (hfit : f.bitOffset + f.bitWidth ≤ 8 * f.size)
    (hlen : f.byteOffset + f.size ≤ buf.length) :
    ∃ buf2, struct_write s fname x buf = .ok buf2 ∧
      struct_read s fname buf2 = .ok (x % 2 ^ f.bitWidth) := by
  have hmem : f ∈ info.fields := List.mem_of_find?_eq_some hf
  have hinv := (parseStruct_fields_invariant hp).1 f hmem
  have hsz := typeSizes_bounds hinv.1
  have hs : 8 * f.size ≤ 64 := by omega
  refine ⟨_, struct_write_bit_eq hp hf hbit x buf, ?_⟩
  rw [struct_read_bit_eq hp hf hbit]
  rw [loadLE_storeLE _ _ _ _ hlen]
  rw [write_read_mask x (loadLE buf f.byteOffset f.size) hfit hs]

theorem bitfield_roundtrip_mod_width_witness :
    ∃ buf2,
      struct_write ("\x7buint8_t b:3;\x7d".toList) ("b".toList) 5 [171] = .ok buf2 ∧
      struct_read ("\x7buint8_t b:3;\x7d".toList) ("b".toList) buf2 = .ok (5 % 2 ^ 3) :=
  @bitfield_roundtrip_mod_width ("\x7buint8_t b:3;\x7d".toList) ("b".toList)
    ⟨[], [⟨"uint8_t".toList, "b".toList, 3, 0, 0, 1, true, false⟩], 1⟩
    ⟨"uint8_t".toList, "b".toList, 3, 0, 0, 1, true, false⟩ 5 [171]
    (by rfl) (by rfl) (by rfl) (by decide) (by decide)

theorem bitfield_roundtrip_claim_cex :
    (256 : Nat) < 2 ^ 9 ∧
    struct_write ("\x7buint8_t f:9;\x7d".toList) ("f".toList) 256 [0, 0] = .ok [0, 0] ∧
    struct_read ("\x7buint8_t f:9;\x7d".toList) ("f".toList) [0, 0] = .ok 0 ∧
    (0 : Nat) ≠ 256 :=
  ⟨by decide, by rfl, by rfl, by decide⟩

/-- Claim C3 (amended): parsing a struct text gives the same result as
parsing the text with comments removed the way the code removes them (line
comments replaced by a space, block comments deleted with no separator)
and whitespace normalized. -/
theorem parseStruct_comment_invariance (s : List Char) :
    parseStruct (strippedEquiv s) = parseStruct s :=
  parseStruct_strippedEquiv s

theorem comment_separator_claim_cex :
    ((parseStruct ("struct S \x7buint8_t a/**/b;\x7d".toList)).map
      (fun i => i.fields.map (fun fi => fi.name)) = .ok ["ab".toList]) ∧
    ((parseStruct (strippedEquivSpec ("struct S \x7buint8_t a/**/b;\x7d".toList))).map
      (fun i => i.fields.map (fun fi => fi.name)) = .ok ["a".toList]) ∧
    (["ab".toList] : List (List Char)) ≠ ["a".toList] :=
  ⟨by rfl, by rfl, by decide⟩

/-- Claim C4 (amended): a field line classified as anonymous advances the
layout cursor exactly like a named field of the same type but is never
collected, and every collected field has `isAnonymous = false`; however a
declaration `TYPE : WIDTH` with whitespace before the colon matches the
named bit-field grammar with an empty name and IS collected. -/
theorem anonymous_bitfields_skipped :
    (∀ (line : List Char) (rest : List (List Char)) (byte bit : Nat) (f : Field) (sz : Nat),
      line ≠ [] → classifyLine line = some f → f.isAnonymous = true →
      getTypeSize f.type = .ok sz →
      parseFields (line :: rest) byte bit
        = parseFields rest (placeField f sz byte bit).1.1 (placeField f sz byte bit).1.2) ∧
    ∀ (s : List Char) (info : StructInfo), parseStruct s = .ok info →
      ∀ fi ∈ info.fields, fi.isAnonymous = false := by
  constructor
  · intro line rest byte bit f sz hne hc ha hsz
    simp only [parseFields]
    rw [if_neg hne, hc]
    dsimp only
    rw [hsz]
    dsimp only
    rw [ha]
    cases parseFields rest (placeField f sz byte bit).1.1 (placeField f sz byte bit).1.2 with
    | error e => rfl
    | ok trip =>
      rcases trip with ⟨fis, bE, tE⟩
      simp
  · intro s info hp fi hfi
    exact ((parseStruct_fields_invariant hp).1 fi hfi).2.2.2

theorem anonymous_bitfields_skipped_witness :
    (parseFields ["uint8_t:3".toList, "uint8_t a".toList] 0 0
      = parseFields ["uint8_t a".toList]
        (placeField ⟨"uint8_t".toList, [], 3, true, true⟩ 1 0 0).1.1
        (placeField ⟨"uint8_t".toList, [], 3, true, true⟩ 1 0 0).1.2) ∧
    (⟨"uint8_t".toList, "a".toList, 0, 0, 0, 1, false, false⟩ : FieldInfo).isAnonymous
      = false :=
  ⟨anonymous_bitfields_skipped.1 ("uint8_t:3".toList) ["uint8_t a".toList] 0 0
      ⟨"uint8_t".toList, [], 3, true, true⟩ 1 (by decide) (by rfl) (by rfl) (by rfl),
   anonymous_bitfields_skipped.2 ("\x7buint8_t a;uint8_t:3;\x7d".toList)
      ⟨[], [⟨"uint8_t".toList, "a".toList, 0, 0, 0, 1, false, false⟩], 2⟩ (by rfl)
      ⟨"uint8_t".toList, "a".toList, 0, 0, 0, 1, false, false⟩ (by decide)⟩

theorem empty_name_field_emitted_cex :
    ((parseStruct ("\x7buint8_t a;uint8_t : 3;\x7d".toList)).map
      (fun i => i.fields.map (fun fi => (fi.name, fi.isAnonymous))))
      = .ok [("a".toList, false), (([] : List Char), false)] := by rfl

/-- Claim C5: the total size of a parsed struct is the final byte cursor
plus exactly one byte when a bit run is still open, regardless of the open
unit's declared storage size. -/
theorem totalSize_open_bit_run {s content : List Char} {fis : List FieldInfo}
    {byte bit : Nat} {info : StructInfo}
    (hp : parseStruct s = .ok info)
    (hc : contentOf (removeCommentsAndExtraSpaces s) = some content)
    (hf : parseFields (splitFields content) 0 0 = .ok (fis, byte, bit)) :
    info.totalSize = byte + (if 0 < bit then 1 else 0) := by
  rcases parseStruct_ok_elim hp with ⟨c2, fis2, b2, t2, hc2, hf2, hinfo⟩
  rw [hc] at hc2
  injection hc2 with hc2
  subst hc2
  rw [hf] at hf2
  injection hf2 with hf2
  injection hf2 with h1 h2
  injection h2 with h2a h2b
  subst h1
  subst h2a
  subst h2b
  subst hinfo
  rfl

theorem totalSize_open_bit_run_witness :
    (⟨[], [⟨"uint32_t".toList, "a".toList, 30, 0, 0, 4, true, false⟩], 1⟩
        : StructInfo).totalSize
      = 0 + (if 0 < 30 then 1 else 0) :=
  @totalSize_open_bit_run ("\x7buint32_t a:30;\x7d".toList) ("uint32_t a:30;".toList)
    [⟨"uint32_t".toList, "a".toList, 30, 0, 0, 4, true, false⟩] 0 30
    ⟨[], [⟨"uint32_t".toList, "a".toList, 30, 0, 0, 4, true, false⟩], 1⟩
    (by rfl) (by rfl) (by rfl)

/-- Claim C6: for a struct whose classified declarations are all
non-bit-fields, the computed size is the plain sum of the declared types'
registry sizes, with no padding. -/
theorem sizeof_plain_sum {s content : List Char} {n : Nat}
    (hc : contentOf (removeCommentsAndExtraSpaces s) = some content)
    (hplain : ∀ line ∈ splitFields content, ∀ f ∈ classifyLine line,
      f.isBitField = false)
    (hok : struct_sizeof s = .ok n) :
    n = sumTypeSizes (splitFields content) := by
  unfold struct_sizeof at hok
  cases hps : parseStruct s with
  | error e =>
    rw [hps] at hok
    cases hok
  | ok info =>
    rw [hps] at hok
    dsimp only at hok
    injection hok with hok
    rcases parseStruct_ok_elim hps with ⟨c2, fis, byte, bit, hc2, hf2, hinfo⟩
    rw [hc] at hc2
    injection hc2 with hc2
    subst hc2
    have hap := parseFields_all_plain (splitFields content) 0 fis byte bit hf2
      (fun l hl f hf => hplain l hl f (Option.mem_def.mpr hf))
    rcases hap with ⟨hb0, hbsum⟩
    subst hinfo
    dsimp only at hok
    subst hb0
    simp at hok
    omega

set_option maxRecDepth 10000 in
theorem sizeof_plain_sum_witness :
    (7 : Nat) = sumTypeSizes (splitFields ("uint8_t a; uint16_t b; uint32_t c;".toList)) :=
  @sizeof_plain_sum ("\x7buint8_t a; uint16_t b; uint32_t c;\x7d".toList)
    ("uint8_t a; uint16_t b; uint32_t c;".toList) 7 (by rfl) (by decide) (by rfl)

/-- Claim C7 (amended): in every parsed layout the byte offsets are
monotonically non-decreasing in declaration order, and every field
satisfies `bitOffset = 0` or `bitOffset + bitWidth ≤ size * 8`; a
bit-field wider than its whole storage unit is placed at bit offset 0 and
violates containment. -/
theorem layout_offsets_invariant {s : List Char} {info : StructInfo}
    (hp : parseStruct s = .ok info) :
    List.Pairwise (fun a b => a.byteOffset ≤ b.byteOffset) info.fields ∧
    ∀ fi ∈ info.fields,
      fi.bitOffset = 0 ∨ fi.bitOffset + fi.bitWidth ≤ fi.size * 8 := by
  have h := parseStruct_fields_invariant hp
  exact ⟨h.2, fun fi hfi => (h.1 fi hfi).2.2.1⟩

theorem layout_offsets_invariant_witness :
    List.Pairwise (fun a b => a.byteOffset ≤ b.byteOffset)
      [(⟨"uint32_t".toList, "a".toList, 30, 0, 0, 4, true, false⟩ : FieldInfo),
       ⟨"uint8_t".toList, "b".toList, 7, 1, 0, 1, true, false⟩] ∧
    ∀ fi ∈ [(⟨"uint32_t".toList, "a".toList, 30, 0, 0, 4, true, false⟩ : FieldInfo),
       ⟨"uint8_t".toList, "b".toList, 7, 1, 0, 1, true, false⟩],
      fi.bitOffset = 0 ∨ fi.bitOffset + fi.bitWidth ≤ fi.size * 8 :=
  @layout_offsets_invariant ("\x7buint32_t a:30;uint8_t b:7;\x7d".toList)
    ⟨[], [⟨"uint32_t".toList, "a".toList, 30, 0, 0, 4, true, false⟩,
      ⟨"uint8_t".toList, "b".toList, 7, 1, 0, 1, true, false⟩], 2⟩ (by rfl)

theorem bitfield_containment_claim_cex :
    ((parseStruct ("\x7buint8_t a:9;\x7d".toList)).map
      (fun i => i.fields.map (fun fi => (fi.bitOffset, fi.bitWidth, fi.size))))
      = .ok [(0, 9, 1)] ∧ ¬((0 : Nat) + 9 ≤ 1 * 8) :=
  ⟨by rfl, by decide⟩

/-- Claim C9: writing a field changes only the bytes of its storage unit,
and for a bit-field it preserves every bit of that unit outside the
written bit range. -/
theorem struct_write_frame {s fname : List Char} {info : StructInfo} {f : FieldInfo}
    {x : Nat} {buf : List Nat}
    (hp : parseStruct s = .ok info)
    (hf : info.fields.find? (fun fi => fi.name = fname) = some f)
    (hlen : f.byteOffset + f.size ≤ buf.length) :
    ∃ buf2, struct_write s fname x buf = .ok buf2 ∧
      buf2.length = buf.length ∧
      (∀ j, j < f.byteOffset ∨ f.byteOffset + f.size ≤ j →
        buf2.getD j 0 = buf.getD j 0) ∧
      (f.isBitField = true → ∀ k, k < 8 * f.size →
        k < f.bitOffset ∨ f.bitOffset + f.bitWidth ≤ k →
        (loadLE buf2 f.byteOffset f.size).testBit k
          = (loadLE buf f.byteOffset f.size).testBit k) := by
  have hmem : f ∈ info.fields := List.mem_of_find?_eq_some hf
  have hinv := (parseStruct_fields_invariant hp).1 f hmem
  have hsz := typeSizes_bounds hinv.1
  have hs : 8 * f.size ≤ 64 := by omega
  cases hbf : f.isBitField with
  | false =>
    refine ⟨_, struct_write_plain_eq hp hf hbf x buf, storeLE_len _ _ _ _,
      fun j hj => storeLE_frame _ _ _ _ _ hj,
      fun hc => absurd hc Bool.false_ne_true⟩
  | true =>
    refine ⟨_, struct_write_bit_eq hp hf hbf x buf, storeLE_len _ _ _ _,
      fun j hj => storeLE_frame _ _ _ _ _ hj, fun _ k hk hout => ?_⟩
    rw [loadLE_storeLE _ _ _ _ hlen]
    exact write_frame_mask x _ k hk hs hout

theorem struct_write_frame_witness :
    ∃ buf2,
      struct_write ("\x7buint16_t v:5;\x7d".toList) ("v".toList) 9 [255, 255] = .ok buf2 ∧
      buf2.length = [255, 255].length ∧
      (∀ j, j < 0 ∨ 0 + 2 ≤ j → buf2.getD j 0 = [255, 255].getD j 0) ∧
      (true = true → ∀ k, k < 8 * 2 → k < 0 ∨ 0 + 5 ≤ k →
        (loadLE buf2 0 2).testBit k = (loadLE [255, 255] 0 2).testBit k) :=
  @struct_write_frame ("\x7buint16_t v:5;\x7d".toList) ("v".toList)
    ⟨[], [⟨"uint16_t".toList, "v".toList, 5, 0, 0, 2, true, false⟩], 1⟩
    ⟨"uint16_t".toList, "v".toList, 5, 0, 0, 2, true, false⟩ 9 [255, 255]
    (by rfl) (by rfl) (by decide)

end StructParser
